import Mathlib

/-!
# Verification of the `useReactiveForm` core engine

A shallow embedding of the core state-binding and validation engine of the
`useReactiveForm` repository (`src/useReactiveForm.ts`): the JavaScript value
model, the tree mutator `findKeyAndUpdateValue`, the structure-preserving
copier `deepCopy`, the dual-state store operations `update` / `clear`, and the
validation orchestrator `validate` / `dynamicValidation`, together with
theorems about their behaviour.

Modelling conventions for the JavaScript runtime:
* numbers are modelled as integers plus a `NaN` marker (no claim exercises
  fractional values);
* property reads on primitives return `undefined` (JavaScript semantics),
  except string/array index and `length` access which are modelled;
* property writes on primitives are ignored (sloppy-mode semantics; no claim
  exercises this case);
* object identity is not modelled: strict equality (`===`) on two container
  values is conservatively `false`, which matches JavaScript whenever the two
  sides are not the very same heap reference (all uses in the engine compare
  against freshly produced strings);
* `Date` leaves are carried as an opaque scalar.
-/

set_option maxHeartbeats 1000000

namespace ReactiveForm

/-- A JavaScript runtime value, as manipulated by the form engine. -/
inductive JS where
  | undef
  | vnull
  | vbool (b : Bool)
  | vnum (n : Int)
  | vnan
  | vstr (s : String)
  | vdate (t : Int)
  | varr (xs : List JS)
  | vobj (fields : List (String × JS))
deriving Repr, Inhabited

namespace JS

/-- JavaScript truthiness of a value. -/
def jsTruthy : JS → Bool
  | undef => false
  | vnull => false
  | vbool b => b
  | vnum n => n != 0
  | vnan => false
  | vstr s => s != ""
  | vdate _ => true
  | varr _ => true
  | vobj _ => true

/-- `typeof x === 'object' && x !== null && x !== undefined && !(x instanceof Date)`:
the condition under which the engine's recursive walks treat a value as a tree
node rather than a leaf. -/
def isNode : JS → Bool
  | varr _ => true
  | vobj _ => true
  | _ => false

/-- JavaScript strict equality `===` restricted to the cases the engine can
reach: scalars compare by value, `NaN` compares unequal to everything
(including itself), and two container values compare unequal (which matches
JavaScript reference equality whenever the two sides are not the same heap
object — the engine only ever compares freshly produced primitive strings). -/
def jsStrictEq : JS → JS → Bool
  | undef, undef => true
  | vnull, vnull => true
  | vbool a, vbool b => a == b
  | vnum a, vnum b => a == b
  | vstr a, vstr b => a == b
  | vdate a, vdate b => a == b
  | _, _ => false

/-- SameValueZero, the key equality used by a JavaScript `Map`.  It differs
from `===` only on `NaN`; containers are compared by reference, modelled as
unequal (the engine only uses string keys on the cache it builds). -/
def jsKeyEq : JS → JS → Bool
  | vnan, vnan => true
  | a, b => jsStrictEq a b

/-- Decimal parse of a character list (structural, so that concrete
evaluations reduce in the kernel). -/
def parseDigits? : List Char → Nat → Option Nat
  | [], acc => some acc
  | c :: cs, acc =>
    if c.isDigit then parseDigits? cs (acc * 10 + (c.toNat - 48)) else none

/-- Fuel-driven decimal printing of a natural number, most significant digit
first and without leading zeros (structural, so that concrete evaluations
reduce in the kernel; any fuel above the number suffices). -/
def decDigitsAux : Nat → Nat → List Char
  | 0, _ => []
  | f + 1, n =>
    if n < 10 then [Nat.digitChar n]
    else decDigitsAux f (n / 10) ++ [Nat.digitChar (n % 10)]

/-- The decimal string `String(n)` of a natural number (the key a JavaScript
`for..in` loop yields for array index `n`). -/
def natKey (n : Nat) : String := String.mk (decDigitsAux (n + 1) n)

/-- Parses a string as a canonical JavaScript array index: `s` is an index
exactly when `String(n) === s` for some natural `n` (`"0"`, `"17"`, …; no
leading zeros, no sign). -/
def canonIndex? (s : String) : Option Nat :=
  match s.data with
  | [] => none
  | _ :: _ =>
    match parseDigits? s.data 0 with
    | some n => if natKey n = s then some n else none
    | none => none

/-- Property read `obj[key]`.  Returns `undefined` for absent properties and
for reads on primitives (index and `length` reads on strings and arrays are
modelled).  Reads on `null`/`undefined` throw in JavaScript; the engine never
performs such a read outside the positions modelled with `jsGet` below. -/
def getKey : JS → String → JS
  | vobj fields, k =>
    match fields.find? (fun p => p.1 == k) with
    | some p => p.2
    | none => undef
  | varr xs, k =>
    if k = "length" then vnum xs.length
    else
      match canonIndex? k with
      | some i => xs.getD i undef
      | none => undef
  | vstr s, k =>
    if k = "length" then vnum s.length
    else
      match canonIndex? k with
      | some i =>
        match s.data.get? i with
        | some c => vstr (String.mk [c])
        | none => undef
      | none => undef
  | _, _ => undef

/-- Replaces the first binding of `k` in an association list, or appends a new
binding (JavaScript property insertion order). -/
def setField : List (String × JS) → String → JS → List (String × JS)
  | [], k, v => [(k, v)]
  | (k', v') :: rest, k, v =>
    if k' = k then (k, v) :: rest else (k', v') :: setField rest k v

/-- Property write `obj[key] = v`.  Writing past the end of an array extends
it with holes (read back as `undefined`); writes on primitives are ignored
(no claim exercises that case, where strict-mode JavaScript would throw). -/
def setKey : JS → String → JS → JS
  | vobj fields, k, v => vobj (setField fields k v)
  | varr xs, k, v =>
    (match canonIndex? k with
     | some i =>
       if i < xs.length then varr (xs.set i v)
       else varr (xs ++ List.replicate (i - xs.length) undef ++ [v])
     | none => varr xs)
  | obj, _, _ => obj

/-- Whether the `for (const k in obj) if (obj.hasOwnProperty(k) && k === keys[0])`
loop of the tree mutator finds the key `k`: an own enumerable property of an
object, or a populated index of an array. -/
def hasKeyLoop : JS → String → Bool
  | vobj fields, k => fields.any (fun p => p.1 == k)
  | varr xs, k =>
    (match canonIndex? k with
     | some i => i < xs.length
     | none => false)
  | _, _ => false

/-- The `TypeError` the JavaScript runtime throws on an illegal property
access, modelled as an opaque value. -/
def jsTypeError : JS := vstr "TypeError"

/-- Property read that can throw: reading a property of `null` or `undefined`
raises a `TypeError` in JavaScript. -/
def jsGet (obj : JS) (k : String) : Except JS JS :=
  match obj with
  | undef => .error jsTypeError
  | vnull => .error jsTypeError
  | o => .ok (getKey o k)

/-- Pure read of a slot addressed by a key path (the spec-side "read back via
the same path"); absent steps read as `undefined`. -/
def getPath : JS → List String → JS
  | obj, [] => obj
  | obj, k :: ks => getPath (getKey obj k) ks

/-- Every step of the path is found by the mutator's walk (including the final
key). -/
def pathExists : JS → List String → Bool
  | _, [] => true
  | obj, k :: ks => hasKeyLoop obj k && pathExists (getKey obj k) ks

/-- The mutator's walk reaches the final key's parent, and the single-key
write there lands (assigning, possibly creating, the final key): the parent
is an object, or an array addressed by a canonical index. -/
def writeLands : JS → List String → Bool
  | _, [] => false
  | vobj _, [_] => true
  | varr _, [k] => (canonIndex? k).isSome
  | _, [_] => false
  | obj, k :: k' :: ks => hasKeyLoop obj k && writeLands (getKey obj k) (k' :: ks)

/-- Some non-final key of the walk is absent: the recursion of the tree
mutator silently terminates. -/
def descentBlocked : JS → List String → Bool
  | _, [] => false
  | _, [_] => false
  | obj, k :: k' :: ks => !hasKeyLoop obj k || descentBlocked (getKey obj k) (k' :: ks)

end JS

open JS

/-- A form control (`HTMLInputElement | HTMLTextAreaElement`), restricted to
the attributes the engine reads. -/
structure Element where
  /-- `getAttribute('type')` -/
  attrType : Option String
  /-- `tagName` -/
  tagName : String
  /-- `getAttribute('multiple')` -/
  multiple : Option String
  /-- `value` -/
  value : String
  /-- values of the currently selected `<option>` children -/
  selectedOptionValues : List String
  /-- `getAttribute('data-select') === 'true'` -/
  dataSelect : Bool
deriving Repr, DecidableEq

/-- JavaScript unary `+` on a string (`+element.value`, the radio coercion).
Only integer numerals are modelled; any other string maps to `NaN` (no claim
exercises fractional numerals). -/
def jsUnaryPlus (s : String) : JS :=
  if s = "" then JS.vnum 0
  else
    match s.toInt? with
    | some n => JS.vnum n
    | none => JS.vnan

/-- `typeof x === 'number'` (`NaN` is a number). -/
def isNumberType : JS → Bool
  | JS.vnum _ => true
  | JS.vnan => true
  | _ => false

/-- The kind-specific extraction policy of the single-key branch of
`findKeyAndUpdateValue`: checkbox membership toggle, radio numeric coercion,
multi-select collection, plain string overwrite (translated from
`src/useReactiveForm.ts`, `findKeyAndUpdateValue`, single-key element case). -/
def extractValue (cur : JS) (el : Element) : JS :=
  if el.attrType = some "checkbox" then
    -- if (!Array.isArray(obj[keys[0]])) obj[keys[0]] = [];
    let arr := match cur with | JS.varr xs => xs | _ => []
    -- const index = obj[keys[0]].indexOf(element.value);
    -- obj[keys[0]] = index < 0 ? [...obj[keys[0]], element.value]
    --                          : obj[keys[0]].filter(v => v !== element.value)
    if arr.any (fun v => jsStrictEq v (JS.vstr el.value)) then
      JS.varr (arr.filter (fun v => !jsStrictEq v (JS.vstr el.value)))
    else
      JS.varr (arr ++ [JS.vstr el.value])
  else if el.attrType = some "radio" then
    -- obj[keys[0]] = typeof obj[keys[0]] === 'number' ? +element.value : element.value
    if isNumberType cur then jsUnaryPlus el.value else JS.vstr el.value
  else if el.tagName = "SELECT" then
    -- const multiple = element.getAttribute('multiple');
    -- if (multiple === '' || multiple) { ...collect selected option values... }
    match el.multiple with
    | some _ => JS.varr (el.selectedOptionValues.map JS.vstr)
    | none => JS.vstr el.value
  else
    JS.vstr el.value

/-- The tree mutator (translated from `src/useReactiveForm.ts`,
`findKeyAndUpdateValue`).  The JavaScript function mutates `obj` in place and
returns the written slot; the embedding returns the pair
(updated tree, returned value), with `undefined` for the bare `return`. -/
def findKeyAndUpdateValue : List String → JS → Option Element → JS → JS × JS
  | [], obj, _, _ => (obj, JS.undef)
  | [k], obj, element, error =>
    -- if (error) { obj[keys[0]] = { value: obj[keys[0]], error: error }; ... }
    if jsTruthy error then
      let slot := JS.vobj [("value", getKey obj k), ("error", error)]
      let obj' := setKey obj k slot
      (obj', getKey obj' k)
    else
      match element with
      | some el =>
        let obj' := setKey obj k (extractValue (getKey obj k) el)
        (obj', getKey obj' k)
      | none => (obj, getKey obj k)
  | k :: k' :: ks, obj, element, error =>
    -- for (const k in obj) if (obj.hasOwnProperty(k) && k === keys[0]) { recurse }
    if hasKeyLoop obj k then
      let res := findKeyAndUpdateValue (k' :: ks) (getKey obj k) element error
      (setKey obj k res.1, res.2)
    else
      (obj, JS.undef)

mutual

/-- The structure-preserving copier (translated from `src/useReactiveForm.ts`,
`deepCopy`).  `let clone = {}` makes the clone of any node a plain object
(array nodes are cloned as objects keyed by their decimal indices, since
`for..in` enumerates index strings). -/
def deepCopy (obj : JS) (preserve : JS := JS.undef) : JS :=
  match obj with
  | JS.vobj fields => JS.vobj (deepCopyFields fields preserve)
  | JS.varr xs => JS.vobj (deepCopyElems 0 xs preserve)
  | _ => JS.vobj []

/-- The `for (const key in obj)` loop of `deepCopy` over an object's fields.
Node children recurse (`preserve ? deepCopy(obj[key], preserve[key]) :
deepCopy(obj[key])`); leaf children evaluate
`preserve && key ? preserve[key] : obj[key]`. -/
def deepCopyFields : List (String × JS) → JS → List (String × JS)
  | [], _ => []
  | (k, v) :: rest, preserve =>
    (k,
      if isNode v then
        (if jsTruthy preserve then deepCopy v (getKey preserve k) else deepCopy v JS.undef)
      else
        (if jsTruthy preserve && k != "" then getKey preserve k else v))
      :: deepCopyFields rest preserve

/-- The same `for..in` loop of `deepCopy` over an array's index keys
`"0"`, `"1"`, …  (the body is identical to the object case). -/
def deepCopyElems : Nat → List JS → JS → List (String × JS)
  | _, [], _ => []
  | i, v :: rest, preserve =>
    (natKey i,
      if isNode v then
        (if jsTruthy preserve then deepCopy v (getKey preserve (natKey i)) else deepCopy v JS.undef)
      else
        (if jsTruthy preserve && natKey i != "" then getKey preserve (natKey i) else v))
      :: deepCopyElems (i + 1) rest preserve

end

/-- Fuel-driven worker for `splitOnAux` (structural recursion on the fuel, so
that concrete evaluations reduce in the kernel; the fuel is always at least
the length of the list plus one, so the `0` case is never reached). -/
def splitOnAuxGo (sep : List Char) : Nat → List Char → List (List Char)
  | 0, _ => [[]]
  | _ + 1, [] => [[]]
  | f + 1, c :: cs =>
    if sep ≠ [] ∧ sep.isPrefixOf (c :: cs) then
      [] :: splitOnAuxGo sep f ((c :: cs).drop sep.length)
    else
      match splitOnAuxGo sep f cs with
      | [] => [[c]]
      | l :: ls => (c :: l) :: ls

/-- JavaScript `String.prototype.split` with a plain (non-regex) separator,
on character lists: scan left to right, cut at the first occurrence of `sep`,
resume after it. -/
def splitOnAux (sep l : List Char) : List (List Char) :=
  splitOnAuxGo sep (l.length + 1) l

/-- JavaScript `s.split(sep)`.  Splitting on the empty string yields the list
of single-character strings. -/
def jsSplit (sep s : String) : List String :=
  if sep = "" then s.data.map (fun c => String.mk [c])
  else (splitOnAux sep.data s.data).map (fun l => String.mk l)

/-- JavaScript `s.replace(new RegExp(pat, 'g'), repl)` for a pattern free of
regex metacharacters (the engine builds the regex from the configured
separator; the default separator `_` is plain). -/
def jsReplaceAll (pat repl s : String) : String :=
  if pat = "" then
    String.mk (repl.data ++ s.data.foldr (fun c acc => c :: (repl.data ++ acc)) [])
  else
    String.mk (List.intercalate repl.data (splitOnAux pat.data s.data))

/-- The Path Resolver of the per-control event handler `sub`
(`src/useReactiveForm.ts`): `const keys = name ? name.split(separator) : []`. -/
def subKeys (separator : String) (name : Option String) : List String :=
  match name with
  | some n => if n = "" then [] else jsSplit separator n
  | none => []

/-- Splitting a reported failure path on the regex `/\[|].|\./` used by
`validate` (`item.path.split(/\[|].|\./)`): the delimiters tried left to
right at each position are `[`, `]` followed by any character other than a
newline (the unescaped `.` of the second alternative), and a literal `.`. -/
def splitYupAux : List Char → List (List Char)
  | [] => [[]]
  | '[' :: rest => [] :: splitYupAux rest
  | '.' :: rest => [] :: splitYupAux rest
  | ']' :: c :: rest =>
    if c ≠ '\n' then [] :: splitYupAux rest
    else
      match splitYupAux (c :: rest) with
      | [] => [[']']]
      | l :: ls => (']' :: l) :: ls
  | c :: rest =>
    match splitYupAux rest with
    | [] => [[c]]
    | l :: ls => (c :: l) :: ls

/-- `item.path.split(/\[|].|\./)` on strings. -/
def splitYupPath (s : String) : List String :=
  (splitYupAux s.data).map (fun l => String.mk l)

/-- `item.path.replace(/[[.]/g, separator).replace(/]/g, '')`: the flat
control selector matching a reported failure path. -/
def yupPathToSelector (separator s : String) : String :=
  String.mk (s.data.foldr
    (fun c acc =>
      if c = '[' ∨ c = '.' then separator.data ++ acc
      else if c = ']' then acc
      else c :: acc) [])

/-- `/\d/.test(name[i])`: `name[i]` out of range is `undefined`, and
`/\d/.test(String(undefined)) = /\d/.test("undefined") = false`. -/
def digitAt (l : List Char) (i : Nat) : Bool :=
  match l.get? i with
  | some c => c.isDigit
  | none => false

/-- `/\w/.test(name[i])`: out of range, `/\w/.test("undefined") = true`
(JavaScript coerces `undefined` to the string `"undefined"`). -/
def wordAt (l : List Char) (i : Nat) : Bool :=
  match l.get? i with
  | some c => c.isAlphanum || c = '_'
  | none => true

/-- The separator-to-schema-notation rewrite of `dynamicValidation`
(translated from `src/useReactiveForm.ts`): replace every separator
occurrence by `_`; rewrite each `_` to `[` when the next character of the
original name is a digit, to `]` when the previous one is; then expand `]` to
`].` when the next character of the original name is a word character (or the
position is past the end, where JavaScript tests `"undefined"`). -/
def toYupPath (separator n : String) : String :=
  let nl := n.data
  let s1 := (jsReplaceAll separator "_" n).data
  let s2 := s1.mapIdx (fun i c =>
    if c = '_' then
      if digitAt nl (i + 1) then '['
      else if i ≠ 0 && digitAt nl (i - 1) then ']'
      else '_'
    else c)
  let s3 := (s2.mapIdx (fun i c =>
    if c = ']' && wordAt nl (i + 1) then [']', '.'] else [c])).flatten
  String.mk s3

/-- The cache key equality of a JavaScript `Map` lookup
(`errorsMap.current.get(...)`): returns `undefined` when the key is absent. -/
def mget : List (JS × JS) → JS → JS
  | [], _ => JS.undef
  | (k, v) :: rest, key => if jsKeyEq k key then v else mget rest key

/-- `errorsMap.current.set(...)`: overwrite an existing entry or append. -/
def mset : List (JS × JS) → JS → JS → List (JS × JS)
  | [], key, v => [(key, v)]
  | (k, v') :: rest, key, v =>
    if jsKeyEq k key then (k, v) :: rest else (k, v') :: mset rest key v

/-- The mutable state the hook holds across events: the value tree
(`form.current`), the annotated tree (`validationObject.current`), the render
suppression cache (`errorsMap.current`), the set of control names currently
carrying the `invalid` visual class, and the number of re-renders requested
so far (each `reload(Date.now())` call increments it). -/
structure FormState where
  form : JS
  validationObject : JS
  errorsMap : List (JS × JS)
  invalidNames : List String
  renders : Nat
deriving Repr

/-- `update` (translated from `src/useReactiveForm.ts`): replace the value
tree, recompute the annotated tree as the structure-preserving copy of the
new tree preserving the previous annotated tree, and request a re-render. -/
def update (f : JS) (st : FormState) : FormState :=
  { st with
    form := f
    validationObject := deepCopy f st.validationObject
    renders := st.renders + 1 }

/-- `clear` (translated from `src/useReactiveForm.ts`):
`const clear = () => update(fields)`, where `fields` is the hook's original
initial tree. -/
def clear (initialFields : JS) (st : FormState) : FormState :=
  update initialFields st

/-- Removing the `invalid` visual class from the control(s) carrying the
given name (visual state is modelled per control name). -/
def markValid (inv : List String) (name : Option String) : List String :=
  match name with
  | some n => inv.filter (fun m => m ≠ n)
  | none => inv

/-- Adding the `invalid` visual class to the control(s) carrying the given
name (`classList.add` is idempotent). -/
def markInvalid (inv : List String) (name : Option String) : List String :=
  match name with
  | some n => if n ∈ inv then inv else inv ++ [n]
  | none => inv

/-- The `e.inner.forEach(item => ...)` loop of the failure branch of
`validate`: for each reported failure, cache `e.message` under `item.path`,
split `item.path` (a `TypeError` propagates when it is not a string), write
`item.message` as the error at that path of the annotated tree, and mark the
matching controls visually invalid. -/
def applyFailures (separator : String) (e : JS) :
    List JS → List (JS × JS) → JS → List String →
    Except JS (List (JS × JS) × JS × List String)
  | [], em, vo, inv => .ok (em, vo, inv)
  | item :: rest, em, vo, inv => do
    let p ← jsGet item "path"
    let em := mset em p (getKey e "message")
    match p with
    | JS.vstr s =>
      let keys := splitYupPath s
      let vo := (findKeyAndUpdateValue keys vo none (getKey item "message")).1
      let inv := markInvalid inv (some (yupPathToSelector separator s))
      applyFailures separator e rest em vo inv
    | _ => Except.error jsTypeError

/-- Full-tree validation (translated from `src/useReactiveForm.ts`,
`validate`).  The schema capability is `schemaValidateSync`: `none` when no
schema is configured; otherwise a function returning `none` on success and
the thrown exception value on failure.  Thrown `TypeError`s of the handler
itself propagate through the `Except`. -/
def validate (schemaValidateSync : Option (JS → Option JS)) (separator : String)
    (st : FormState) : Except JS (Bool × FormState) :=
  match schemaValidateSync with
  | none => .ok (true, st)
  | some vs =>
    -- remove the 'invalid' visual mark from every control of the form
    let st1 : FormState := { st with invalidNames := [] }
    -- validationObject.current = deepCopy(form.current)
    let st2 : FormState := { st1 with validationObject := deepCopy st1.form JS.undef }
    match vs st2.form with
    | none => .ok (true, update st2.form st2)
    | some e => do
      let inner ← jsGet e "inner"
      match inner with
      | JS.varr items => do
        let (em, vo, inv) ←
          applyFailures separator e items st2.errorsMap st2.validationObject st2.invalidNames
        .ok (false,
          { st2 with
            errorsMap := em
            validationObject := vo
            invalidNames := inv
            renders := st2.renders + 1 })
      | _ => Except.error jsTypeError

/-- Per-path validation (translated from `src/useReactiveForm.ts`,
`dynamicValidation`).  `validateSyncAt` is the schema's single-path check
(`none` on success, the thrown exception value on failure).  Returns the new
state and whether a re-render was requested. -/
def dynamicValidation (validateSyncAt : String → JS → Option JS) (separator : String)
    (name : Option String) (st : FormState) (element : Element) :
    Except JS (FormState × Bool) :=
  let path := match name with
    | some n => if n = "" then "" else toYupPath separator n
    | none => ""
  let isSelect := element.dataSelect
  let errors := st.validationObject
  let keys := subKeys separator name
  match validateSyncAt path st.form with
  | none =>
    -- valid; shouldUpdate = get(path) !== '' && get(path) !== undefined
    let cached := mget st.errorsMap (JS.vstr path)
    let shouldUpdate := !jsStrictEq cached (JS.vstr "") && !jsStrictEq cached JS.undef
    let em := mset st.errorsMap (JS.vstr path) (JS.vstr "")
    let errors' := (findKeyAndUpdateValue keys errors (some element) JS.undef).1
    let inv := markValid st.invalidNames name
    let rendered := isSelect || shouldUpdate
    .ok ({ st with
            validationObject := errors'
            errorsMap := em
            invalidNames := inv
            renders := st.renders + (if rendered then 1 else 0) }, rendered)
  | some e => do
    -- invalid; shouldUpdate = get(path) !== e.message
    let msg ← jsGet e "message"
    let cached := mget st.errorsMap (JS.vstr path)
    let shouldUpdate := !jsStrictEq cached msg
    let res := findKeyAndUpdateValue keys errors (some element) msg
    -- errorsMap.set(path, findKeyAndUpdateValue(...).error)
    let errVal ← jsGet res.2 "error"
    let em := mset st.errorsMap (JS.vstr path) errVal
    let inv := markInvalid st.invalidNames name
    let rendered := isSelect || shouldUpdate
    .ok ({ st with
            validationObject := res.1
            errorsMap := em
            invalidNames := inv
            renders := st.renders + (if rendered then 1 else 0) }, rendered)

/-- The entry value the structure-preserving copier produces for one key
(the common body of the two `for..in` branches of `deepCopy`). -/
def deepCopyEntryVal (k : String) (v : JS) (preserve : JS) : JS :=
  if isNode v then
    (if jsTruthy preserve then deepCopy v (getKey preserve k) else deepCopy v JS.undef)
  else
    (if jsTruthy preserve && k != "" then getKey preserve k else v)

/-- The preserve tree the copier passes down along a key path: at each step
the next preserve argument is `preserve[key]` when `preserve` is truthy and
the default `undefined` otherwise. -/
def preserveAt : JS → List String → JS
  | pr, [] => pr
  | pr, k :: ks => preserveAt (if jsTruthy pr then getKey pr k else JS.undef) ks

/-- The path addresses a leaf of the tree: every intermediate slot is a tree
node whose key the `for..in` walk finds, and the addressed slot is a leaf. -/
def leafPath : JS → List String → Bool
  | obj, [] => !isNode obj
  | obj, k :: ks => isNode obj && hasKeyLoop obj k && leafPath (getKey obj k) ks

/-- Joining keys with the separator (the spec-side construction of a flat
control identifier). -/
def joinSep (sep : String) : List String → String
  | [] => ""
  | [k] => k
  | k :: ks => k ++ sep ++ joinSep sep ks

/-- The separator occurs in `k ++ sep` only at the boundary position `|k|`.
This is the amended hypothesis of the path round-trip: it implies the key
contains no separator occurrence, and every single-character separator with a
separator-free key satisfies it. -/
def noEarlyOccur (sep k : List Char) : Prop :=
  ∀ i, i < k.length → ¬ sep.isPrefixOf ((k ++ sep).drop i)

instance (sep k : List Char) : Decidable (noEarlyOccur sep k) := by
  unfold noEarlyOccur
  exact Nat.decidableBallLT _ _

/-- A plain text input control. -/
def textElement (v : String) : Element :=
  { attrType := some "text", tagName := "INPUT", multiple := none,
    value := v, selectedOptionValues := [], dataSelect := false }

/-- A checkbox control with the given value. -/
def checkboxElement (v : String) : Element :=
  { attrType := some "checkbox", tagName := "INPUT", multiple := none,
    value := v, selectedOptionValues := [], dataSelect := false }

/-- A control carrying the `data-select='true'` marker (the custom select
kind, which `dynamicValidation` always re-renders for). -/
def selectDataElement (v : String) : Element :=
  { attrType := some "text", tagName := "INPUT", multiple := none,
    value := v, selectedOptionValues := [], dataSelect := true }

/-! ### Basic lemmas about the JavaScript object model -/

theorem canonIndex?_natKey_eq {s : String} {i : Nat} (h : canonIndex? s = some i) :
    natKey i = s := by
  unfold canonIndex? at h
  split at h
  next => cases h
  next =>
    split at h
    next n hn =>
      split at h
      next ht => injection h with h'; subst h'; exact ht
      next => cases h
    next => cases h

theorem canonIndex?_inj {s t : String} {i : Nat} (hs : canonIndex? s = some i)
    (ht : canonIndex? t = some i) : s = t := by
  rw [← canonIndex?_natKey_eq hs, canonIndex?_natKey_eq ht]

theorem canonIndex?_length_eq_none : canonIndex? "length" = none := by decide

theorem ne_length_of_canonIndex? {k : String} {i : Nat} (hc : canonIndex? k = some i) :
    k ≠ "length" := by
  intro hk
  rw [hk, canonIndex?_length_eq_none] at hc
  cases hc

theorem setField_find?_self (fs : List (String × JS)) (k : String) (v : JS) :
    (setField fs k v).find? (fun p => p.1 == k) = some (k, v) := by
  induction fs with
  | nil => simp [setField]
  | cons p rest ih =>
    obtain ⟨k', v'⟩ := p
    by_cases hk : k' = k
    · simp [setField, hk]
    · simp [setField, hk, ih]

theorem setField_find?_ne (fs : List (String × JS)) (k : String) (v : JS) (k' : String)
    (h : k' ≠ k) :
    (setField fs k v).find? (fun p => p.1 == k') = fs.find? (fun p => p.1 == k') := by
  have h1 : (k == k') = false := beq_eq_false_iff_ne.mpr (Ne.symm h)
  induction fs with
  | nil => simp [setField, h1]
  | cons p rest ih =>
    obtain ⟨k₀, v₀⟩ := p
    by_cases hk : k₀ = k
    · subst hk
      simp [setField, List.find?_cons, h1]
    · simp only [setField, if_neg hk, List.find?_cons]
      cases h0 : (k₀ == k') <;> simp [ih]

theorem setField_any (fs : List (String × JS)) (k : String) (v : JS) (k' : String) :
    (setField fs k v).any (fun p => p.1 == k') =
      (fs.any (fun p => p.1 == k') || (k == k')) := by
  induction fs with
  | nil => simp [setField]
  | cons p rest ih =>
    obtain ⟨k₀, v₀⟩ := p
    by_cases hk : k₀ = k
    · subst hk
      simp only [setField, if_pos rfl, List.any_cons]
      cases h1 : (k₀ == k') <;> simp [h1]
    · simp [setField, hk, ih, Bool.or_assoc]

theorem writeLands_single_of_hasKeyLoop {obj : JS} {k : String}
    (h : hasKeyLoop obj k = true) : writeLands obj [k] = true := by
  cases obj <;> simp_all only [hasKeyLoop, writeLands]
  split at h
  next i hi => simp [hi]
  next => cases h

theorem getKey_setKey_self {obj : JS} {k : String} {v : JS}
    (h : writeLands obj [k] = true) : getKey (setKey obj k v) k = v := by
  cases obj with
  | vobj fs => simp [setKey, getKey, setField_find?_self]
  | varr xs =>
    simp only [writeLands, Option.isSome_iff_exists] at h
    obtain ⟨i, hc⟩ := h
    have hlen : k ≠ "length" := ne_length_of_canonIndex? hc
    by_cases hi : i < xs.length
    · simp only [setKey, hc, if_pos hi, getKey, if_neg hlen,
        List.getD_eq_getElem?_getD]
      rw [List.getElem?_set_self hi]
      rfl
    · have hle : xs.length ≤ i := Nat.le_of_not_lt hi
      simp only [setKey, hc, if_neg hi, getKey, if_neg hlen,
        List.getD_eq_getElem?_getD, List.append_assoc]
      rw [List.getElem?_append_right hle, List.getElem?_append_right (by simp)]
      simp
  | undef => simp [writeLands] at h
  | vnull => simp [writeLands] at h
  | vbool b => simp [writeLands] at h
  | vnum n => simp [writeLands] at h
  | vnan => simp [writeLands] at h
  | vstr s => simp [writeLands] at h
  | vdate t => simp [writeLands] at h

theorem hasKeyLoop_setKey {obj : JS} {k k' : String} {v : JS}
    (h : hasKeyLoop obj k' = true) : hasKeyLoop (setKey obj k v) k' = true := by
  cases obj with
  | vobj fs => simp_all [hasKeyLoop, setKey, setField_any]
  | varr xs =>
    simp only [hasKeyLoop] at h
    cases hc' : canonIndex? k' with
    | none => rw [hc'] at h; cases h
    | some j =>
      rw [hc'] at h
      simp only [decide_eq_true_eq] at h
      simp only [setKey]
      cases hc : canonIndex? k with
      | none => simp [hasKeyLoop, hc', h]
      | some i =>
        by_cases hi : i < xs.length
        · simp [if_pos hi, hasKeyLoop, hc', h]
        · simp only [if_neg hi, hasKeyLoop, hc', List.append_assoc,
            List.length_append, decide_eq_true_eq]
          omega
  | undef => simp [hasKeyLoop] at h
  | vnull => simp [hasKeyLoop] at h
  | vbool b => simp [hasKeyLoop] at h
  | vnum n => simp [hasKeyLoop] at h
  | vnan => simp [hasKeyLoop] at h
  | vstr s => simp [hasKeyLoop] at h
  | vdate t => simp [hasKeyLoop] at h

theorem getKey_setKey_ne {obj : JS} {k k' : String} {v : JS}
    (hne : k ≠ k') (h : hasKeyLoop obj k' = true) :
    getKey (setKey obj k v) k' = getKey obj k' := by
  cases obj with
  | vobj fs => simp [setKey, getKey, setField_find?_ne _ _ _ _ (Ne.symm hne)]
  | varr xs =>
    simp only [hasKeyLoop] at h
    cases hc' : canonIndex? k' with
    | none => rw [hc'] at h; cases h
    | some j =>
      rw [hc'] at h
      simp only [decide_eq_true_eq] at h
      have hlen' : k' ≠ "length" := ne_length_of_canonIndex? hc'
      simp only [setKey]
      cases hc : canonIndex? k with
      | none => rfl
      | some i =>
        have hij : i ≠ j := fun he => hne (canonIndex?_inj hc (he ▸ hc'))
        by_cases hi : i < xs.length
        · simp only [if_pos hi, getKey, if_neg hlen', hc',
            List.getD_eq_getElem?_getD]
          rw [List.getElem?_set_ne hij]
        · simp only [if_neg hi, getKey, if_neg hlen', hc',
            List.getD_eq_getElem?_getD, List.append_assoc]
          rw [List.getElem?_append_left h]
  | undef => simp [hasKeyLoop] at h
  | vnull => simp [hasKeyLoop] at h
  | vbool b => simp [hasKeyLoop] at h
  | vnum n => simp [hasKeyLoop] at h
  | vnan => simp [hasKeyLoop] at h
  | vstr s => simp [hasKeyLoop] at h
  | vdate t => simp [hasKeyLoop] at h

theorem isNode_setKey {obj : JS} {k : String} {v : JS} (h : isNode obj = true) :
    isNode (setKey obj k v) = true := by
  cases obj with
  | vobj fs => simp [setKey, isNode]
  | varr xs =>
    simp only [setKey]
    cases canonIndex? k with
    | none => simp [isNode]
    | some i => by_cases hi : i < xs.length <;> simp [hi, isNode]
  | _ => simp [isNode] at h

theorem writeLands_single_setKey {obj : JS} {k k' : String} {v : JS}
    (h : writeLands obj [k'] = true) : writeLands (setKey obj k v) [k'] = true := by
  cases obj with
  | vobj fs => simp [setKey, writeLands]
  | varr xs =>
    simp only [setKey]
    cases canonIndex? k with
    | none => simpa [writeLands] using h
    | some i =>
      by_cases hi : i < xs.length <;> simp only [if_pos, if_neg, hi] <;>
        simpa [writeLands] using h
  | _ => simp [writeLands] at h

theorem writeLands_of_pathExists {obj : JS} {keys : List String}
    (h : pathExists obj keys = true) (hne : keys ≠ []) : writeLands obj keys = true := by
  induction keys generalizing obj with
  | nil => exact absurd rfl hne
  | cons k ks ih =>
    cases ks with
    | nil =>
      simp only [pathExists, Bool.and_eq_true] at h
      exact writeLands_single_of_hasKeyLoop h.1
    | cons k' ks' =>
      simp only [pathExists, Bool.and_eq_true] at h
      simp only [writeLands, Bool.and_eq_true]
      refine ⟨h.1, ih ?_ (by simp)⟩
      simp only [pathExists, Bool.and_eq_true]
      exact h.2

theorem jsStrictEq_vstr_iff (x : JS) (s : String) :
    jsStrictEq x (JS.vstr s) = true ↔ x = JS.vstr s := by
  cases x <;> simp [jsStrictEq]

theorem jsStrictEq_undef_iff (x : JS) :
    jsStrictEq x JS.undef = true ↔ x = JS.undef := by
  cases x <;> simp [jsStrictEq]

theorem setField_self_get {fs : List (String × JS)} {k : String}
    (h : fs.any (fun p => p.1 == k) = true) :
    setField fs k (match fs.find? (fun p => p.1 == k) with
                   | some p => p.2
                   | none => JS.undef) = fs := by
  induction fs with
  | nil => cases h
  | cons p rest ih =>
    obtain ⟨k₀, v₀⟩ := p
    by_cases hk : k₀ = k
    · subst hk
      simp [setField, List.find?_cons]
    · have hb : (k₀ == k) = false := beq_eq_false_iff_ne.mpr hk
      simp only [List.any_cons, hb, Bool.false_or] at h
      simp only [List.find?_cons, hb, setField, if_neg hk]
      rw [ih h]

theorem setKey_getKey_self {obj : JS} {k : String}
    (h : hasKeyLoop obj k = true) : setKey obj k (getKey obj k) = obj := by
  cases obj with
  | vobj fs =>
    simp only [hasKeyLoop] at h
    simp only [setKey, getKey]
    rw [setField_self_get h]
  | varr xs =>
    simp only [hasKeyLoop] at h
    cases hc : canonIndex? k with
    | none => rw [hc] at h; cases h
    | some i =>
      rw [hc] at h
      simp only [decide_eq_true_eq] at h
      have hlen : k ≠ "length" := ne_length_of_canonIndex? hc
      simp only [setKey, getKey, hc, if_pos h, if_neg hlen]
      congr 1
      apply List.ext_getElem?
      intro n
      by_cases hn : n = i
      · subst hn
        rw [List.getElem?_set_self h, List.getD_eq_getElem?_getD,
          List.getElem?_eq_getElem h]
        rfl
      · rw [List.getElem?_set_ne (fun he => hn he.symm)]
  | undef => simp [hasKeyLoop] at h
  | vnull => simp [hasKeyLoop] at h
  | vbool b => simp [hasKeyLoop] at h
  | vnum n => simp [hasKeyLoop] at h
  | vnan => simp [hasKeyLoop] at h
  | vstr s => simp [hasKeyLoop] at h
  | vdate t => simp [hasKeyLoop] at h

theorem findKeyAndUpdateValue_single_elem (k : String) (obj : JS) (el : Element) :
    findKeyAndUpdateValue [k] obj (some el) JS.undef =
      (setKey obj k (extractValue (getKey obj k) el),
       getKey (setKey obj k (extractValue (getKey obj k) el)) k) := rfl

theorem getKey_singleton (k : String) (cur : JS) :
    getKey (JS.vobj [(k, cur)]) k = cur := by
  simp [getKey]

theorem setKey_singleton (k : String) (cur x : JS) :
    setKey (JS.vobj [(k, cur)]) k x = JS.vobj [(k, x)] := by
  simp [setKey, setField]

theorem any_map_vstr (ss : List String) (v : String) :
    ((ss.map JS.vstr).any fun x => jsStrictEq x (JS.vstr v)) =
      ss.any (fun x => x == v) := by
  induction ss with
  | nil => rfl
  | cons a t ih =>
    simp only [List.map_cons, List.any_cons, ih]
    rfl

theorem filter_map_vstr (ss : List String) (v : String) :
    List.filter (fun x => !jsStrictEq x (JS.vstr v)) (ss.map JS.vstr) =
      (ss.filter (fun x => x ≠ v)).map JS.vstr := by
  induction ss with
  | nil => rfl
  | cons a t ih =>
    simp only [List.map_cons, List.filter_cons]
    by_cases ha : a = v
    · subst ha
      have h1 : (!jsStrictEq (JS.vstr a) (JS.vstr a)) = false := by
        simp [jsStrictEq]
      have h2 : decide (a ≠ a) = false := by simp
      rw [h1, h2, ih]
      simp
    · have h1 : (!jsStrictEq (JS.vstr a) (JS.vstr v)) = true := by
        simp [jsStrictEq, ha]
      have h2 : decide (a ≠ v) = true := by simp [ha]
      rw [h1, h2, ih]
      simp

theorem extractValue_checkbox_strings (ss : List String) (v : String) :
    extractValue (JS.varr (ss.map JS.vstr)) (checkboxElement v) =
      JS.varr ((if v ∈ ss then ss.filter (fun x => x ≠ v) else ss ++ [v]).map JS.vstr) := by
  have hred : extractValue (JS.varr (ss.map JS.vstr)) (checkboxElement v) =
      (if (ss.map JS.vstr).any (fun x => jsStrictEq x (JS.vstr v)) then
        JS.varr ((ss.map JS.vstr).filter (fun x => !jsStrictEq x (JS.vstr v)))
      else JS.varr (ss.map JS.vstr ++ [JS.vstr v])) := rfl
  rw [hred, any_map_vstr]
  by_cases hv : v ∈ ss
  · have h1 : ss.any (fun x => x == v) = true :=
      List.any_eq_true.mpr ⟨v, hv, by simp⟩
    rw [h1, if_pos hv]
    simp only [if_true]
    rw [filter_map_vstr]
  · have h1 : ss.any (fun x => x == v) = false := by
      rw [List.any_eq_false]
      intro x hx hxx
      apply hv
      have hxv : x = v := by simpa using hxx
      exact hxv ▸ hx
    rw [h1, if_neg hv]
    simp [List.map_append]

/-! ## Claims -/

/-- C2: for every current slot value and checkbox value, the checkbox
extraction treats the slot as a list of strings (starting from the empty list
when the slot was not already a list) and toggles membership of the control's
value — appended when absent, removed when present.  Consequently toggling the
same value twice from an empty list returns the list to empty, and toggling
"b" then "a" on ["a"] yields ["a","b"] then ["b"]. -/
theorem claim_C2 :
    (∀ (k v : String) (ss : List String),
      (findKeyAndUpdateValue [k] (JS.vobj [(k, JS.varr (ss.map JS.vstr))])
          (some (checkboxElement v)) JS.undef).1 =
        JS.vobj [(k, JS.varr
          ((if v ∈ ss then ss.filter (fun x => x ≠ v) else ss ++ [v]).map JS.vstr))]) ∧
    (∀ (k v : String) (cur : JS), (∀ xs, cur ≠ JS.varr xs) →
      (findKeyAndUpdateValue [k] (JS.vobj [(k, cur)])
          (some (checkboxElement v)) JS.undef).1 =
        JS.vobj [(k, JS.varr [JS.vstr v])]) ∧
    ((findKeyAndUpdateValue ["t"]
        (findKeyAndUpdateValue ["t"] (JS.vobj [("t", JS.varr [])])
          (some (checkboxElement "x")) JS.undef).1
        (some (checkboxElement "x")) JS.undef).1 = JS.vobj [("t", JS.varr [])]) ∧
    ((findKeyAndUpdateValue ["tags"] (JS.vobj [("tags", JS.varr [JS.vstr "a"])])
        (some (checkboxElement "b")) JS.undef).1 =
      JS.vobj [("tags", JS.varr [JS.vstr "a", JS.vstr "b"])]) ∧
    ((findKeyAndUpdateValue ["tags"]
        (JS.vobj [("tags", JS.varr [JS.vstr "a", JS.vstr "b"])])
        (some (checkboxElement "a")) JS.undef).1 =
      JS.vobj [("tags", JS.varr [JS.vstr "b"])]) := by
  refine ⟨?_, ?_, rfl, rfl, rfl⟩
  · intro k v ss
    rw [findKeyAndUpdateValue_single_elem, getKey_singleton, setKey_singleton,
      extractValue_checkbox_strings]
  · intro k v cur hcur
    rw [findKeyAndUpdateValue_single_elem, getKey_singleton, setKey_singleton]
    have harr : extractValue cur (checkboxElement v) = JS.varr [JS.vstr v] := by
      cases cur with
      | varr xs => exact absurd rfl (hcur xs)
      | undef => rfl
      | vnull => rfl
      | vbool b => rfl
      | vnum n => rfl
      | vnan => rfl
      | vstr s => rfl
      | vdate t => rfl
      | vobj fs => rfl
    rw [harr]

/-- C2 witness: the general toggle statements applied to concrete inputs —
removing "a" from the singleton list ["a"], and toggling "q" on a non-list
slot. -/
theorem claim_C2_witness :
    (findKeyAndUpdateValue ["k"] (JS.vobj [("k", JS.varr [JS.vstr "a"])])
        (some (checkboxElement "a")) JS.undef).1 = JS.vobj [("k", JS.varr [])] ∧
    (findKeyAndUpdateValue ["k"] (JS.vobj [("k", JS.vstr "zzz")])
        (some (checkboxElement "q")) JS.undef).1 =
      JS.vobj [("k", JS.varr [JS.vstr "q"])] := by
  constructor
  · have h := claim_C2.1 "k" "a" ["a"]
    simpa using h
  · exact claim_C2.2.1 "k" "q" (JS.vstr "zzz") (fun xs h => by cases h)

/-- C3 counterexample: a single-key path whose slot is absent from the tree is
not skipped — the write creates the key, changing the tree's shape. -/
theorem claim_C3_counterexample :
    (findKeyAndUpdateValue ["a"] (JS.vobj []) (some (textElement "x")) JS.undef).1 ≠
      JS.vobj [] := by
  have h0 : (findKeyAndUpdateValue ["a"] (JS.vobj []) (some (textElement "x")) JS.undef).1 =
      JS.vobj [("a", JS.vstr "x")] := rfl
  rw [h0]
  simp

/-- C3 (amended): whenever some non-final key of the walk is absent from the
current tree shape, the tree write silently skips and leaves the tree
unchanged, returning `undefined`; the final key of a path whose earlier keys
all resolve is assigned unconditionally (created when absent), so only the
explicit whole-tree replace — not a blocked walk — can be relied on for
structural change. -/
theorem claim_C3 {obj : JS} {keys : List String} {el : Option Element} {err : JS}
    (h : descentBlocked obj keys = true) :
    findKeyAndUpdateValue keys obj el err = (obj, JS.undef) := by
  induction keys generalizing obj with
  | nil => simp [descentBlocked] at h
  | cons k ks ih =>
    cases ks with
    | nil => simp [descentBlocked] at h
    | cons k' ks' =>
      by_cases hk : hasKeyLoop obj k = true
      · have hb : descentBlocked (getKey obj k) (k' :: ks') = true := by
          simp only [descentBlocked, Bool.or_eq_true, Bool.not_eq_true'] at h
          rcases h with h | h
          · rw [hk] at h; cases h
          · exact h
        simp only [findKeyAndUpdateValue, hk, if_pos]
        rw [ih hb]
        simp [setKey_getKey_self hk]
      · simp only [findKeyAndUpdateValue, hk]
        simp

/-- C3 witness: a blocked two-key walk on the empty tree leaves it unchanged. -/
theorem claim_C3_witness :
    descentBlocked (JS.vobj []) ["a", "b"] = true ∧
    findKeyAndUpdateValue ["a", "b"] (JS.vobj []) (some (textElement "x")) JS.undef =
      (JS.vobj [], JS.undef) :=
  ⟨by decide, claim_C3 (by decide)⟩

/-- C9: when the hook is constructed without a validation schema, `validate`
returns `true` and the whole state — value tree, annotated tree, error cache,
visual marks, and render count — is untouched. -/
theorem claim_C9 (separator : String) (st : FormState) :
    validate none separator st = .ok (true, st) := rfl

/-- C10: the error branch of the tree write is taken only for a truthy (hence
non-empty) error message: a write with the empty string as error message
behaves exactly like a write with no error supplied, and with no element it
leaves the tree unchanged, never producing a `{ value, error }` pair. -/
theorem claim_C10 {obj : JS} {k : String} {el : Option Element}
    (_h : hasKeyLoop obj k = true) :
    findKeyAndUpdateValue [k] obj el (JS.vstr "") =
      findKeyAndUpdateValue [k] obj el JS.undef ∧
    (findKeyAndUpdateValue [k] obj none (JS.vstr "")).1 = obj :=
  ⟨rfl, rfl⟩

/-- C10 witness: the empty-error write on a present single-key path coincides
with the no-error write. -/
theorem claim_C10_witness :
    hasKeyLoop (JS.vobj [("user", JS.vstr "")]) "user" = true ∧
    findKeyAndUpdateValue ["user"] (JS.vobj [("user", JS.vstr "")]) none (JS.vstr "") =
      findKeyAndUpdateValue ["user"] (JS.vobj [("user", JS.vstr "")]) none JS.undef :=
  ⟨by decide, (@claim_C10 (JS.vobj [("user", JS.vstr "")]) "user" none (by decide)).1⟩

/-! ### Decimal index strings -/

theorem digitChar_isDigit {n : Nat} (h : n < 10) : (Nat.digitChar n).isDigit = true := by
  have hall : ∀ m, m < 10 → (Nat.digitChar m).isDigit = true := by decide
  exact hall n h

theorem digitChar_val {n : Nat} (h : n < 10) : (Nat.digitChar n).toNat - 48 = n := by
  have hall : ∀ m, m < 10 → (Nat.digitChar m).toNat - 48 = m := by decide
  exact hall n h

theorem parseDigits?_append (xs ys : List Char) (acc : Nat) :
    parseDigits? (xs ++ ys) acc =
      match parseDigits? xs acc with
      | some m => parseDigits? ys m
      | none => none := by
  induction xs generalizing acc with
  | nil => rfl
  | cons c cs ih =>
    simp only [List.cons_append, parseDigits?]
    by_cases hc : c.isDigit
    · rw [if_pos hc, if_pos hc]
      exact ih _
    · rw [if_neg hc, if_neg hc]

theorem parseDigits?_singleton_digit {n : Nat} (h : n < 10) (acc : Nat) :
    parseDigits? [Nat.digitChar n] acc = some (acc * 10 + n) := by
  simp [parseDigits?, digitChar_isDigit h, digitChar_val h]

theorem parseDigits?_decDigitsAux :
    ∀ (f n acc : Nat), n < f →
      parseDigits? (decDigitsAux f n) acc =
        some (acc * 10 ^ (decDigitsAux f n).length + n) := by
  intro f
  induction f with
  | zero => intro n acc h; exact absurd h (Nat.not_lt_zero n)
  | succ f ih =>
    intro n acc h
    by_cases hn : n < 10
    · simp only [decDigitsAux, if_pos hn, parseDigits?_singleton_digit hn,
        List.length_singleton, pow_one]
    · have h10 : n / 10 < f := by omega
      simp only [decDigitsAux, if_neg hn]
      rw [parseDigits?_append, ih (n / 10) acc h10]
      have hm : n % 10 < 10 := Nat.mod_lt _ (by omega)
      show parseDigits? [Nat.digitChar (n % 10)]
          (acc * 10 ^ (decDigitsAux f (n / 10)).length + n / 10) = _
      rw [parseDigits?_singleton_digit hm]
      congr 1
      rw [List.length_append, List.length_cons, List.length_nil]
      have hexp : (acc * 10 ^ (decDigitsAux f (n / 10)).length + n / 10) * 10 + n % 10 =
          acc * (10 ^ (decDigitsAux f (n / 10)).length * 10) + (10 * (n / 10) + n % 10) := by
        ring
      rw [hexp, Nat.div_add_mod, ← pow_succ]

theorem decDigitsAux_ne_nil {f n : Nat} (h : 0 < f) : decDigitsAux f n ≠ [] := by
  cases f with
  | zero => omega
  | succ f => by_cases hn : n < 10 <;> simp [decDigitsAux, hn]

theorem parseDigits?_natKey (n : Nat) : parseDigits? (natKey n).data 0 = some n := by
  have h := parseDigits?_decDigitsAux (n + 1) n 0 (by omega)
  simpa [natKey] using h

theorem natKey_inj {m n : Nat} (h : natKey m = natKey n) : m = n := by
  have hm := parseDigits?_natKey m
  rw [h, parseDigits?_natKey n] at hm
  injection hm with h'
  exact h'.symm

theorem canonIndex?_natKey (n : Nat) : canonIndex? (natKey n) = some n := by
  cases hd : (natKey n).data with
  | nil =>
    have : decDigitsAux (n + 1) n = [] := by simpa [natKey] using hd
    exact absurd this (decDigitsAux_ne_nil (by omega))
  | cons c cs =>
    have hp : parseDigits? (c :: cs) 0 = some n := hd ▸ parseDigits?_natKey n
    simp [canonIndex?, hd, hp]

/-! ### The copier's action on fields -/

theorem deepCopyFields_find? (fs : List (String × JS)) (pr : JS) (k : String) :
    (deepCopyFields fs pr).find? (fun p => p.1 == k) =
      (fs.find? (fun p => p.1 == k)).map (fun p => (p.1, deepCopyEntryVal p.1 p.2 pr)) := by
  induction fs with
  | nil => rfl
  | cons p rest ih =>
    obtain ⟨k₀, v₀⟩ := p
    simp only [deepCopyFields, List.find?_cons]
    cases h0 : (k₀ == k) with
    | true => rfl
    | false => simpa [h0] using ih

theorem deepCopyElems_find? (xs : List JS) (pr : JS) :
    ∀ (start i : Nat) (hi : i < xs.length),
      (deepCopyElems start xs pr).find? (fun p => p.1 == natKey (start + i)) =
        some (natKey (start + i),
          deepCopyEntryVal (natKey (start + i)) (xs.get ⟨i, hi⟩) pr) := by
  induction xs with
  | nil => intro start i hi; simp at hi
  | cons v rest ih =>
    intro start i hi
    cases i with
    | zero =>
      have hb : (natKey start == natKey (start + 0)) = true := by simp
      simp only [deepCopyElems, List.find?_cons, hb]
      rfl
    | succ j =>
      have hne : (natKey start == natKey (start + (j + 1))) = false := by
        rw [beq_eq_false_iff_ne]
        intro he
        have := natKey_inj he
        omega
      have hj : j < rest.length := by simpa using Nat.lt_of_succ_lt_succ hi
      have harr : start + 1 + j = start + (j + 1) := by omega
      have hrec := ih (start + 1) j hj
      rw [harr] at hrec
      simp only [deepCopyElems, List.find?_cons, hne, hrec]
      rfl

theorem getKey_deepCopy {source preserve : JS} {k : String}
    (hk : hasKeyLoop source k = true) :
    getKey (deepCopy source preserve) k = deepCopyEntryVal k (getKey source k) preserve := by
  cases source with
  | vobj fs =>
    simp only [hasKeyLoop] at hk
    cases hf : fs.find? (fun p => p.1 == k) with
    | none =>
      rw [List.find?_eq_none] at hf
      rw [List.any_eq_true] at hk
      obtain ⟨p, hp, hpk⟩ := hk
      exact absurd hpk (hf p hp)
    | some p =>
      have hk1 : p.1 = k := by simpa using List.find?_some hf
      have hgkey : getKey (JS.vobj fs) k = p.2 := by simp [getKey, hf]
      have hdc : getKey (deepCopy (JS.vobj fs) preserve) k =
          deepCopyEntryVal p.1 p.2 preserve := by
        simp [deepCopy, getKey, deepCopyFields_find?, hf]
      rw [hdc, hgkey, hk1]
  | varr xs =>
    simp only [hasKeyLoop] at hk
    cases hc : canonIndex? k with
    | none => rw [hc] at hk; cases hk
    | some i =>
      rw [hc] at hk
      simp only [decide_eq_true_eq] at hk
      have hlen : k ≠ "length" := ne_length_of_canonIndex? hc
      have hkey : natKey i = k := canonIndex?_natKey_eq hc
      subst hkey
      have hfind := deepCopyElems_find? xs preserve 0 i hk
      simp only [Nat.zero_add] at hfind
      simp only [deepCopy, getKey, hfind, if_neg hlen, hc,
        List.getD_eq_getElem?_getD, List.getElem?_eq_getElem hk]
      rfl
  | undef => simp [hasKeyLoop] at hk
  | vnull => simp [hasKeyLoop] at hk
  | vbool b => simp [hasKeyLoop] at hk
  | vnum n => simp [hasKeyLoop] at hk
  | vnan => simp [hasKeyLoop] at hk
  | vstr s => simp [hasKeyLoop] at hk
  | vdate t => simp [hasKeyLoop] at hk

/-- C5 counterexample: with a preserve tree supplied but lacking the leaf's
key, the clone's leaf is `undefined`, not the source's leaf as the claim
states. -/
theorem claim_C5_counterexample :
    deepCopy (JS.vobj [("a", JS.vstr "x")]) (JS.vobj []) = JS.vobj [("a", JS.undef)] ∧
    JS.vobj [("a", JS.undef)] ≠ JS.vobj [("a", JS.vstr "x")] := by
  refine ⟨rfl, ?_⟩
  simp

/-- C5 (amended): `deepCopy` clones every node of the source, and at each
leaf, when the preserve tree walked down to the leaf's parent is truthy (and
the key non-empty), the clone's leaf is the preserve tree's value at that key
— whatever it is, `undefined` included when the key is absent there —
while only when no preserve tree reaches the parent does the clone take the
source's leaf as-is.  Consequently commit preserves annotations for leaf
paths whose parent chain exists in the old annotated tree, while wholly new
subtrees start with the new tree's values. -/
theorem claim_C5 (source preserve : JS) (ks : List String) (k : String)
    (h : leafPath source (ks ++ [k]) = true) :
    getPath (deepCopy source preserve) (ks ++ [k]) =
      (if jsTruthy (preserveAt preserve ks) && (k != "") then
        getKey (preserveAt preserve ks) k
      else getPath source (ks ++ [k])) := by
  induction ks generalizing source preserve with
  | nil =>
    simp only [List.nil_append] at h ⊢
    simp only [leafPath, Bool.and_eq_true] at h
    obtain ⟨⟨hn, hkl⟩, hleaf⟩ := h
    simp only [getPath]
    rw [getKey_deepCopy hkl]
    have hlf : isNode (getKey source k) = false := by simpa using hleaf
    simp only [deepCopyEntryVal, preserveAt]
    rw [if_neg (by simp [hlf])]
  | cons k₀ ks' ih =>
    simp only [List.cons_append] at h ⊢
    simp only [leafPath, Bool.and_eq_true] at h
    obtain ⟨⟨hn, hkl⟩, hrest⟩ := h
    simp only [getPath, preserveAt]
    rw [getKey_deepCopy hkl]
    have hchild : isNode (getKey source k₀) = true := by
      cases hks' : ks' ++ [k] with
      | nil => simp at hks'
      | cons a t =>
        rw [hks'] at hrest
        simp only [leafPath, Bool.and_eq_true] at hrest
        exact hrest.1.1
    simp only [deepCopyEntryVal, if_pos hchild]
    by_cases hpr : jsTruthy preserve = true
    · rw [if_pos hpr, if_pos hpr]
      exact ih (getKey source k₀) (getKey preserve k₀) hrest
    · rw [if_neg hpr, if_neg hpr]
      exact ih (getKey source k₀) JS.undef hrest

/-- C5 witness: the leaf rule applied to a source with an annotated preserve
tree — the previously attached `{ value, error }` annotation is carried over. -/
theorem claim_C5_witness :
    leafPath (JS.vobj [("user", JS.vstr "new")]) ["user"] = true ∧
    getPath
      (deepCopy (JS.vobj [("user", JS.vstr "new")])
        (JS.vobj [("user", JS.vobj [("value", JS.vstr ""), ("error", JS.vstr "req")])]))
      ["user"] =
      (if jsTruthy (preserveAt
            (JS.vobj [("user", JS.vobj [("value", JS.vstr ""), ("error", JS.vstr "req")])]) [])
          && ("user" != "") then
        getKey (JS.vobj [("user", JS.vobj [("value", JS.vstr ""), ("error", JS.vstr "req")])])
          "user"
      else getPath (JS.vobj [("user", JS.vstr "new")]) ["user"]) :=
  ⟨by decide,
   claim_C5 (JS.vobj [("user", JS.vstr "new")])
     (JS.vobj [("user", JS.vobj [("value", JS.vstr ""), ("error", JS.vstr "req")])])
     [] "user" (by decide)⟩

/-! ### Split / join round trip -/

theorem splitOnAuxGo_irrel (sep : List Char) :
    ∀ (f₁ f₂ : Nat) (l : List Char), l.length < f₁ → l.length < f₂ →
      splitOnAuxGo sep f₁ l = splitOnAuxGo sep f₂ l := by
  intro f₁
  induction f₁ with
  | zero => intro f₂ l h₁ h₂; exact absurd h₁ (by omega)
  | succ f₁ ih =>
    intro f₂ l h₁ h₂
    cases f₂ with
    | zero => exact absurd h₂ (by omega)
    | succ f₂ =>
      cases l with
      | nil => rfl
      | cons c cs =>
        simp only [splitOnAuxGo]
        by_cases hcut : sep ≠ [] ∧ sep.isPrefixOf (c :: cs)
        · rw [if_pos hcut, if_pos hcut]
          have hsep : 0 < sep.length := List.length_pos.mpr hcut.1
          have hd : ((c :: cs).drop sep.length).length < f₁ := by
            simp only [List.length_drop, List.length_cons] at *
            omega
          have hd2 : ((c :: cs).drop sep.length).length < f₂ := by
            simp only [List.length_drop, List.length_cons] at *
            omega
          rw [ih f₂ _ hd hd2]
        · rw [if_neg hcut, if_neg hcut]
          have hc1 : cs.length < f₁ := by
            simp only [List.length_cons] at h₁; omega
          have hc2 : cs.length < f₂ := by
            simp only [List.length_cons] at h₂; omega
          rw [ih f₂ cs hc1 hc2]

theorem splitOnAux_nil (sep : List Char) : splitOnAux sep [] = [[]] := rfl

theorem splitOnAux_cons (sep : List Char) (c : Char) (cs : List Char) :
    splitOnAux sep (c :: cs) =
      if sep ≠ [] ∧ sep.isPrefixOf (c :: cs) then
        [] :: splitOnAux sep ((c :: cs).drop sep.length)
      else
        match splitOnAux sep cs with
        | [] => [[c]]
        | l :: ls => (c :: l) :: ls := by
  show splitOnAuxGo sep ((c :: cs).length + 1) (c :: cs) = _
  simp only [List.length_cons, splitOnAuxGo]
  by_cases hcut : sep ≠ [] ∧ sep.isPrefixOf (c :: cs)
  · rw [if_pos hcut, if_pos hcut]
    have hsep : 0 < sep.length := List.length_pos.mpr hcut.1
    rw [splitOnAuxGo_irrel sep (cs.length + 1) (((c :: cs).drop sep.length).length + 1) _
      (by simp only [List.length_drop, List.length_cons]; omega) (by omega)]
    rfl
  · rw [if_neg hcut, if_neg hcut]
    rw [splitOnAuxGo_irrel sep (cs.length + 1) (cs.length + 1 + 0) cs (by omega) (by omega)]
    rfl

theorem isPrefixOf_of_append_le {sep x t : List Char}
    (h : sep.isPrefixOf (x ++ t) = true) (hle : sep.length ≤ x.length) :
    sep.isPrefixOf x = true := by
  rw [List.isPrefixOf_iff_prefix] at h ⊢
  have heq : sep = (x ++ t).take sep.length := List.prefix_iff_eq_take.mp h
  rw [List.take_append_eq_append_take, Nat.sub_eq_zero_of_le hle, List.take_zero,
    List.append_nil] at heq
  rw [heq]
  exact List.take_prefix _ _

theorem isPrefixOf_append_left {sep x : List Char} (t : List Char)
    (h : sep.isPrefixOf x = true) : sep.isPrefixOf (x ++ t) = true := by
  rw [List.isPrefixOf_iff_prefix] at h ⊢
  exact h.trans (List.prefix_append x t)

theorem splitOnAux_no_occur (sep : List Char) (_hs : sep ≠ []) :
    ∀ k : List Char, (∀ i, i < k.length → ¬ sep.isPrefixOf (k.drop i) = true) →
      splitOnAux sep k = [k] := by
  intro k
  induction k with
  | nil => intro _; rfl
  | cons c cs ih =>
    intro h
    rw [splitOnAux_cons]
    have h0 : ¬ sep.isPrefixOf (c :: cs) = true := by
      have := h 0 (by simp)
      simpa using this
    rw [if_neg (by intro hc; exact h0 hc.2)]
    rw [ih (fun i hi => by simpa using h (i + 1) (by simpa using Nat.succ_lt_succ hi))]

theorem splitOnAux_boundary (sep : List Char) (hs : sep ≠ []) :
    ∀ (k t : List Char),
      (∀ i, i < k.length → ¬ sep.isPrefixOf ((k ++ sep).drop i) = true) →
      splitOnAux sep (k ++ sep ++ t) = k :: splitOnAux sep t := by
  intro k
  induction k with
  | nil =>
    intro t _
    simp only [List.nil_append]
    cases hsep : sep with
    | nil => exact absurd hsep hs
    | cons s ss =>
      rw [← hsep]
      have hne : sep ++ t ≠ [] := by simp [hsep]
      cases hst : sep ++ t with
      | nil => exact absurd hst hne
      | cons a bs =>
        rw [← hst, hst, splitOnAux_cons, ← hst]
        rw [if_pos ⟨hs, by rw [List.isPrefixOf_iff_prefix]; exact List.prefix_append sep t⟩]
        rw [List.drop_left]
  | cons c cs ih =>
    intro t h
    have hcc : (c :: cs) ++ sep ++ t = c :: (cs ++ sep ++ t) := by simp
    rw [hcc, splitOnAux_cons]
    have h0 : ¬ sep.isPrefixOf (c :: (cs ++ sep ++ t)) = true := by
      intro hp
      have hle : sep.length ≤ (c :: (cs ++ sep)).length := by
        simp only [List.length_cons, List.length_append]
        omega
      have : sep.isPrefixOf ((c :: (cs ++ sep)) ++ t) = true := by
        simpa [List.append_assoc] using hp
      have hpre := isPrefixOf_of_append_le this hle
      have := h 0 (by simp)
      simp only [List.drop_zero] at this
      exact this (by simpa using hpre)
    rw [if_neg (by intro hc; exact h0 hc.2)]
    rw [ih t (fun i hi => by
      have := h (i + 1) (by simpa using Nat.succ_lt_succ hi)
      simpa using this)]

theorem mk_data_eq (s : String) : String.mk s.data = s := rfl

/-- Plain (non-checkbox, non-radio, non-select) extraction stores the raw
string value. -/
theorem extractValue_plain {cur : JS} {el : Element}
    (h1 : el.attrType ≠ some "checkbox") (h2 : el.attrType ≠ some "radio")
    (h3 : el.tagName ≠ "SELECT") :
    extractValue cur el = JS.vstr el.value := by
  simp [extractValue, h1, h2, h3]

theorem write_then_read {el : Element}
    (h1 : el.attrType ≠ some "checkbox") (h2 : el.attrType ≠ some "radio")
    (h3 : el.tagName ≠ "SELECT") :
    ∀ (keys : List String) (obj : JS), keys ≠ [] → pathExists obj keys = true →
      getPath (findKeyAndUpdateValue keys obj (some el) JS.undef).1 keys =
        JS.vstr el.value := by
  intro keys
  induction keys with
  | nil => intro obj hne _; exact absurd rfl hne
  | cons k ks ih =>
    intro obj _ hex
    simp only [pathExists, Bool.and_eq_true] at hex
    cases ks with
    | nil =>
      rw [findKeyAndUpdateValue_single_elem, extractValue_plain h1 h2 h3]
      simp only [getPath]
      rw [getKey_setKey_self (writeLands_single_of_hasKeyLoop hex.1)]
    | cons k' ks' =>
      have hkl : hasKeyLoop obj k = true := hex.1
      simp only [findKeyAndUpdateValue, hkl, if_pos]
      simp only [getPath]
      rw [getKey_setKey_self (writeLands_single_of_hasKeyLoop hkl)]
      exact ih (getKey obj k) (by simp) hex.2

/-- C8 counterexample: the separator `"bb"` and the keys `["b","c"]` — neither
key contains the separator, yet splitting the joined identifier does not
reproduce the keys, because an occurrence of the separator spans the
key–separator boundary. -/
theorem claim_C8_counterexample :
    (∀ k ∈ ["b", "c"], ∀ i : Nat, ¬ ("bb".data.isPrefixOf ((k : String).data.drop i)) = true) ∧
    joinSep "bb" ["b", "c"] = "bbbc" ∧
    jsSplit "bb" (joinSep "bb" ["b", "c"]) = ["", "bc"] ∧
    ["", "bc"] ≠ ["b", "c"] := by
  refine ⟨?_, rfl, rfl, by simp⟩
  intro k hk i
  have h1 : (k : String).data.length ≤ 1 := by
    simp only [List.mem_cons, List.mem_singleton] at hk
    rcases hk with rfl | hk
    · decide
    · rcases hk with rfl | hk
      · decide
      · simp at hk
  cases hd : (k : String).data.drop i with
  | nil => simp [List.isPrefixOf]
  | cons a bs =>
    have hlen : bs = [] := by
      have := congrArg List.length hd
      simp only [List.length_drop, List.length_cons] at this
      cases bs with
      | nil => rfl
      | cons x xs => simp only [List.length_cons] at this; omega
    subst hlen
    simp [List.isPrefixOf]

/-- C8 (amended): for every non-empty separator and non-empty key sequence
such that, for each key, the separator occurs in `key ++ separator` only at
the boundary position (which holds in particular for any single-character
separator with separator-free keys, such as the default `_`), splitting the
joined flat identifier reproduces exactly the key sequence; and writing a
plain (non-checkbox, non-radio, non-select) control value at a path that
exists in the tree, then reading the slot back via the same path, yields the
written value. -/
theorem claim_C8 :
    (∀ (sep : String) (keys : List String), sep ≠ "" → keys ≠ [] →
      (∀ k ∈ keys, noEarlyOccur sep.data (k : String).data) →
      jsSplit sep (joinSep sep keys) = keys) ∧
    (∀ (el : Element) (keys : List String) (obj : JS),
      el.attrType ≠ some "checkbox" → el.attrType ≠ some "radio" →
      el.tagName ≠ "SELECT" → keys ≠ [] → pathExists obj keys = true →
      getPath (findKeyAndUpdateValue keys obj (some el) JS.undef).1 keys =
        JS.vstr el.value) := by
  constructor
  · intro sep keys hsep hne h
    have hsd : sep.data ≠ [] := by
      intro hd
      exact hsep (by cases sep with | _ l => simpa using congrArg String.mk hd)
    induction keys with
    | nil => exact absurd rfl hne
    | cons k ks ih =>
      cases ks with
      | nil =>
        show jsSplit sep k = [k]
        rw [jsSplit, if_neg hsep]
        have hk0 : ∀ i, i < k.data.length → ¬ sep.data.isPrefixOf (k.data.drop i) = true := by
          intro i hi hp
          have hocc := h k (by simp) i hi
          apply hocc
          show sep.data.isPrefixOf ((k.data ++ sep.data).drop i) = true
          rw [List.drop_append_eq_append_drop, Nat.sub_eq_zero_of_le (Nat.le_of_lt hi),
            List.drop_zero]
          exact isPrefixOf_append_left sep.data hp
        rw [splitOnAux_no_occur sep.data hsd k.data hk0]
        simp [mk_data_eq]
      | cons k' ks' =>
        have hjoin : joinSep sep (k :: k' :: ks') = k ++ sep ++ joinSep sep (k' :: ks') :=
          rfl
        rw [hjoin, jsSplit, if_neg hsep]
        have hdata : (k ++ sep ++ joinSep sep (k' :: ks')).data =
            k.data ++ sep.data ++ (joinSep sep (k' :: ks')).data := by
          simp
        rw [hdata, splitOnAux_boundary sep.data hsd k.data _ (fun i hi => by
          have := h k (by simp) i hi
          simpa using this)]
        have hih := ih (by simp) (fun k hk => h k (List.mem_cons_of_mem _ hk))
        rw [jsSplit, if_neg hsep] at hih
        simp only [List.map_cons, mk_data_eq]
        rw [hih]
  · intro el keys obj h1 h2 h3 hne hex
    exact write_then_read h1 h2 h3 keys obj hne hex

/-- C8 witness: round trip of `books_0_title` with the default separator, and
write-then-read of a text value at the existing path `["books","0","title"]`. -/
theorem claim_C8_witness :
    jsSplit "_" (joinSep "_" ["books", "0", "title"]) = ["books", "0", "title"] ∧
    getPath
      (findKeyAndUpdateValue ["books", "0", "title"]
        (JS.vobj [("books", JS.varr [JS.vobj [("title", JS.vstr ""), ("author", JS.vstr "")]])])
        (some (textElement "Dune")) JS.undef).1
      ["books", "0", "title"] = JS.vstr "Dune" :=
  ⟨claim_C8.1 "_" ["books", "0", "title"] (by decide) (by decide) (by decide),
   claim_C8.2 (textElement "Dune") ["books", "0", "title"]
     (JS.vobj [("books", JS.varr [JS.vobj [("title", JS.vstr ""), ("author", JS.vstr "")]])])
     (by decide) (by decide) (by decide) (by decide) (by decide)⟩

/-! ### The validation orchestrator -/

theorem jsGet_ok {obj : JS} (h1 : obj ≠ JS.undef) (h2 : obj ≠ JS.vnull) (k : String) :
    jsGet obj k = .ok (getKey obj k) := by
  cases obj
  case undef => exact absurd rfl h1
  case vnull => exact absurd rfl h2
  all_goals rfl

theorem exceptOkBind {α : Type} (a : JS) (f : JS → Except JS α) :
    (Except.ok a : Except JS JS) >>= f = f a := rfl

theorem exceptOkBind' {α β : Type} (a : β) (f : β → Except JS α) :
    (Except.ok a : Except JS β) >>= f = f a := rfl

theorem applyFailures_ok (separator : String) (e : JS) :
    ∀ (items : List JS) (em : List (JS × JS)) (vo : JS) (inv : List String),
      (∀ item ∈ items, item ≠ JS.undef ∧ item ≠ JS.vnull ∧
        ∃ s, getKey item "path" = JS.vstr s) →
      ∃ em' vo' inv',
        applyFailures separator e items em vo inv = .ok (em', vo', inv') := by
  intro items
  induction items with
  | nil => intro em vo inv _; exact ⟨em, vo, inv, rfl⟩
  | cons item rest ih =>
    intro em vo inv h
    obtain ⟨h1, h2, s, hs⟩ := h item (by simp)
    have hrec := ih (mset em (JS.vstr s) (getKey e "message"))
      ((findKeyAndUpdateValue (splitYupPath s) vo none (getKey item "message")).1)
      (markInvalid inv (some (yupPathToSelector separator s)))
      (fun it hit => h it (List.mem_cons_of_mem _ hit))
    obtain ⟨em', vo', inv', hrec⟩ := hrec
    refine ⟨em', vo', inv', ?_⟩
    simp only [applyFailures, jsGet_ok h1 h2, exceptOkBind, hs]
    exact hrec

/-- C4 counterexample: a validation capability that throws a value without an
`inner` list of failures — the handler's own `e.inner.forEach` raises a
`TypeError` that propagates to the caller, so `validate` does not return a
boolean. -/
theorem claim_C4_counterexample :
    validate (some (fun _ => some (JS.vstr "boom"))) "_"
      { form := JS.vobj [("user", JS.vstr "")],
        validationObject := JS.vobj [("user", JS.vstr "")],
        errorsMap := [], invalidNames := [], renders := 0 } = .error jsTypeError := rfl

/-- C4 (amended): `validate` returns a boolean — `true` when no schema is
configured or the whole-tree check succeeds, `false` when the check throws a
validation-error-shaped exception (a non-null value whose `inner` property is
an array of non-null items each carrying a string `path`) — and in those
cases no exception propagates.  An exception of any other shape, however,
escapes `validate` as the handler's own `TypeError`. -/
theorem claim_C4 (vs : JS → Option JS) (separator : String) (st : FormState) :
    (validate none separator st = .ok (true, st)) ∧
    (vs st.form = none →
      validate (some vs) separator st =
        .ok (true, update st.form
          { st with invalidNames := [], validationObject := deepCopy st.form JS.undef })) ∧
    (∀ e items, vs st.form = some e → e ≠ JS.undef → e ≠ JS.vnull →
      getKey e "inner" = JS.varr items →
      (∀ item ∈ items, item ≠ JS.undef ∧ item ≠ JS.vnull ∧
        ∃ s, getKey item "path" = JS.vstr s) →
      ∃ st', validate (some vs) separator st = .ok (false, st')) := by
  refine ⟨rfl, ?_, ?_⟩
  · intro hs
    simp only [validate, hs]
  · intro e items hf he1 he2 hinner hitems
    obtain ⟨em', vo', inv', hrun⟩ :=
      applyFailures_ok separator e items st.errorsMap
        (deepCopy st.form JS.undef) ([] : List String) hitems
    refine ⟨{ form := st.form, validationObject := vo', errorsMap := em',
              invalidNames := inv', renders := st.renders + 1 }, ?_⟩
    simp only [validate, hf, jsGet_ok he1 he2, exceptOkBind, hinner, hrun, exceptOkBind']

/-- C4 witness: the success and well-formed-failure cases at concrete inputs. -/
theorem claim_C4_witness :
    validate (some (fun _ => none)) "_"
      { form := JS.vobj [("user", JS.vstr "a")],
        validationObject := JS.vobj [("user", JS.vstr "a")],
        errorsMap := [], invalidNames := [], renders := 0 } =
      .ok (true, update (JS.vobj [("user", JS.vstr "a")])
        { form := JS.vobj [("user", JS.vstr "a")],
          validationObject := deepCopy (JS.vobj [("user", JS.vstr "a")]) JS.undef,
          errorsMap := [], invalidNames := [], renders := 0 }) ∧
    ∃ st', validate
      (some (fun _ => some (JS.vobj [("message", JS.vstr "agg"),
        ("inner", JS.varr [JS.vobj [("path", JS.vstr "user"),
          ("message", JS.vstr "required")]])])))
      "_"
      { form := JS.vobj [("user", JS.vstr "")],
        validationObject := JS.vobj [("user", JS.vstr "")],
        errorsMap := [], invalidNames := [], renders := 0 } = .ok (false, st') := by
  constructor
  · exact (claim_C4 (fun _ => none) "_" _).2.1 rfl
  · exact (claim_C4 _ "_" _).2.2 _ _ rfl (by simp) (by simp) rfl
      (by
        intro item hitem
        simp only [List.mem_singleton] at hitem
        subst hitem
        exact ⟨by simp, by simp, "user", rfl⟩)

/-! ### Per-path validation -/

theorem findKeyAndUpdateValue_error_slot {err : JS} (he : jsTruthy err = true) :
    ∀ (keys : List String) (obj : JS) (el : Option Element),
      writeLands obj keys = true →
      (findKeyAndUpdateValue keys obj el err).2 =
        JS.vobj [("value", getPath obj keys), ("error", err)] ∧
      getPath (findKeyAndUpdateValue keys obj el err).1 keys =
        JS.vobj [("value", getPath obj keys), ("error", err)] ∧
      writeLands (findKeyAndUpdateValue keys obj el err).1 keys = true := by
  intro keys
  induction keys with
  | nil => intro obj el h; simp [writeLands] at h
  | cons k ks ih =>
    intro obj el h
    cases ks with
    | nil =>
      simp only [findKeyAndUpdateValue, he, if_true]
      have hset := getKey_setKey_self
        (v := JS.vobj [("value", getKey obj k), ("error", err)]) h
      refine ⟨hset, ?_, writeLands_single_setKey h⟩
      simp only [getPath]
      rw [hset]
    | cons k' ks' =>
      simp only [writeLands, Bool.and_eq_true] at h
      simp only [findKeyAndUpdateValue, h.1, if_true]
      obtain ⟨ih1, ih2, ih3⟩ := ih (getKey obj k) el h.2
      have hw1 : writeLands obj [k] = true := writeLands_single_of_hasKeyLoop h.1
      have hget := getKey_setKey_self
        (v := (findKeyAndUpdateValue (k' :: ks') (getKey obj k) el err).1) hw1
      refine ⟨ih1, ?_, ?_⟩
      · simp only [getPath]
        rw [hget]
        exact ih2
      · simp only [writeLands, Bool.and_eq_true]
        exact ⟨hasKeyLoop_setKey h.1, by rw [hget]; exact ih3⟩

theorem writeLands_findKeyAndUpdateValue {el : Option Element} {err : JS} :
    ∀ (keys : List String) (obj : JS), writeLands obj keys = true →
      writeLands (findKeyAndUpdateValue keys obj el err).1 keys = true := by
  intro keys
  induction keys with
  | nil => intro obj h; simp [writeLands] at h
  | cons k ks ih =>
    intro obj h
    cases ks with
    | nil =>
      by_cases herr : jsTruthy err = true
      · simp only [findKeyAndUpdateValue, herr, if_true]
        exact writeLands_single_setKey h
      · simp only [findKeyAndUpdateValue, herr]
        simp only [Bool.false_eq_true, if_false]
        cases el with
        | some e => exact writeLands_single_setKey h
        | none => exact h
    | cons k' ks' =>
      simp only [writeLands, Bool.and_eq_true] at h
      simp only [findKeyAndUpdateValue, h.1, if_true]
      have hw1 : writeLands obj [k] = true := writeLands_single_of_hasKeyLoop h.1
      have hget := getKey_setKey_self
        (v := (findKeyAndUpdateValue (k' :: ks') (getKey obj k) el err).1) hw1
      simp only [writeLands, Bool.and_eq_true]
      exact ⟨hasKeyLoop_setKey h.1, by rw [hget]; exact ih _ h.2⟩

theorem jsKeyEq_vstr_refl (s : String) : jsKeyEq (JS.vstr s) (JS.vstr s) = true := by
  simp [jsKeyEq, jsStrictEq]

theorem mget_mset_self (em : List (JS × JS)) (k v : JS) (h : jsKeyEq k k = true) :
    mget (mset em k v) k = v := by
  induction em with
  | nil => simp [mset, mget, h]
  | cons p rest ih =>
    obtain ⟨k₀, v₀⟩ := p
    by_cases h0 : jsKeyEq k₀ k = true
    · simp [mset, mget, h0]
    · simp only [mset, mget, Bool.not_eq_true] at *
      rw [if_neg (by simp [h0])]
      simp only [mget]
      rw [if_neg (by simp [h0])]
      exact ih

theorem cache_nonempty_iff {c : JS} (h : c = JS.undef ∨ ∃ s, c = JS.vstr s) :
    ((!jsStrictEq c (JS.vstr "")) && (!jsStrictEq c JS.undef)) = true ↔
      ∃ s, s ≠ "" ∧ c = JS.vstr s := by
  rcases h with rfl | ⟨s, rfl⟩
  · simp [jsStrictEq]
  · by_cases hs : s = ""
    · subst hs
      simp [jsStrictEq]
    · simp only [jsStrictEq, Bool.and_eq_true, Bool.not_eq_true']
      constructor
      · intro _; exact ⟨s, hs, rfl⟩
      · intro _
        constructor
        · simpa using hs
        · trivial

theorem cache_ne_iff (c : JS) (m : String) :
    (!jsStrictEq c (JS.vstr m)) = true ↔ c ≠ JS.vstr m := by
  rw [Bool.not_eq_true']
  constructor
  · intro hf he
    rw [he] at hf
    simp [jsStrictEq] at hf
  · intro hne
    rw [← Bool.not_eq_true]
    intro ht
    exact hne ((jsStrictEq_vstr_iff c m).mp ht)

theorem dynamicValidation_success_eq
    (vsa : String → JS → Option JS) (sep n : String) (st : FormState) (el : Element)
    (hn : n ≠ "") (hs : vsa (toYupPath sep n) st.form = none) :
    dynamicValidation vsa sep (some n) st el =
      .ok ({ st with
        validationObject :=
          (findKeyAndUpdateValue (jsSplit sep n) st.validationObject (some el) JS.undef).1,
        errorsMap := mset st.errorsMap (JS.vstr (toYupPath sep n)) (JS.vstr ""),
        invalidNames := markValid st.invalidNames (some n),
        renders := st.renders +
          (if el.dataSelect ||
              (!jsStrictEq (mget st.errorsMap (JS.vstr (toYupPath sep n))) (JS.vstr "") &&
               !jsStrictEq (mget st.errorsMap (JS.vstr (toYupPath sep n))) JS.undef)
            then 1 else 0) },
        el.dataSelect ||
          (!jsStrictEq (mget st.errorsMap (JS.vstr (toYupPath sep n))) (JS.vstr "") &&
           !jsStrictEq (mget st.errorsMap (JS.vstr (toYupPath sep n))) JS.undef)) := by
  simp only [dynamicValidation, subKeys, if_neg hn, hs]

theorem dynamicValidation_failure_eq
    (vsa : String → JS → Option JS) (sep n : String) (st : FormState) (el : Element)
    (e : JS) (m : String)
    (hn : n ≠ "") (hf : vsa (toYupPath sep n) st.form = some e)
    (he1 : e ≠ JS.undef) (he2 : e ≠ JS.vnull) (hm : getKey e "message" = JS.vstr m)
    (hmne : m ≠ "") (hl : writeLands st.validationObject (jsSplit sep n) = true) :
    dynamicValidation vsa sep (some n) st el =
      .ok ({ st with
        validationObject :=
          (findKeyAndUpdateValue (jsSplit sep n) st.validationObject (some el)
            (JS.vstr m)).1,
        errorsMap := mset st.errorsMap (JS.vstr (toYupPath sep n)) (JS.vstr m),
        invalidNames := markInvalid st.invalidNames (some n),
        renders := st.renders + (if el.dataSelect ||
            !jsStrictEq (mget st.errorsMap (JS.vstr (toYupPath sep n))) (JS.vstr m)
          then 1 else 0) },
        el.dataSelect ||
          !jsStrictEq (mget st.errorsMap (JS.vstr (toYupPath sep n))) (JS.vstr m)) := by
  have hslot := (@findKeyAndUpdateValue_error_slot (JS.vstr m)
    (by simp [jsTruthy, hmne]) (jsSplit sep n) st.validationObject (some el) hl).1
  have hjg : jsGet (findKeyAndUpdateValue (jsSplit sep n) st.validationObject (some el)
      (JS.vstr m)).2 "error" = .ok (JS.vstr m) := by
    rw [hslot]
    rfl
  simp only [dynamicValidation, subKeys, if_neg hn, hf, jsGet_ok he1 he2, hm,
    exceptOkBind, hjg, exceptOkBind']

/-- One per-path validation call, characterized: it returns normally, leaves
the value tree alone, keeps the annotated-tree path writable, requests a
render exactly when the control is a data-select or the suppression boolean
fires, and leaves the new outcome in the cache. -/
theorem dynamicValidation_char
    (vsa : String → JS → Option JS) (sep n : String) (st : FormState) (el : Element)
    (hn : n ≠ "")
    (hl : writeLands st.validationObject (jsSplit sep n) = true)
    (hwfe : ∀ e, vsa (toYupPath sep n) st.form = some e →
      e ≠ JS.undef ∧ e ≠ JS.vnull ∧ ∃ m, m ≠ "" ∧ getKey e "message" = JS.vstr m) :
    ∃ st' r, dynamicValidation vsa sep (some n) st el = .ok (st', r) ∧
      st'.form = st.form ∧
      writeLands st'.validationObject (jsSplit sep n) = true ∧
      (vsa (toYupPath sep n) st.form = none →
        r = (el.dataSelect ||
          (!jsStrictEq (mget st.errorsMap (JS.vstr (toYupPath sep n))) (JS.vstr "") &&
           !jsStrictEq (mget st.errorsMap (JS.vstr (toYupPath sep n))) JS.undef)) ∧
        mget st'.errorsMap (JS.vstr (toYupPath sep n)) = JS.vstr "") ∧
      (∀ e, vsa (toYupPath sep n) st.form = some e →
        r = (el.dataSelect ||
          !jsStrictEq (mget st.errorsMap (JS.vstr (toYupPath sep n)))
            (getKey e "message")) ∧
        mget st'.errorsMap (JS.vstr (toYupPath sep n)) = getKey e "message") := by
  cases houtcome : vsa (toYupPath sep n) st.form with
  | none =>
    refine ⟨_, _, dynamicValidation_success_eq vsa sep n st el hn houtcome, rfl,
      writeLands_findKeyAndUpdateValue _ _ hl, ?_, ?_⟩
    · intro _
      exact ⟨rfl, mget_mset_self _ _ _ (jsKeyEq_vstr_refl _)⟩
    · intro e he
      exact Option.noConfusion he
  | some e =>
    obtain ⟨he1, he2, m, hmne, hm⟩ := hwfe e houtcome
    refine ⟨_, _,
      dynamicValidation_failure_eq vsa sep n st el e m hn houtcome he1 he2 hm hmne hl, rfl,
      writeLands_findKeyAndUpdateValue _ _ hl, ?_, ?_⟩
    · intro hnone
      exact Option.noConfusion hnone
    · intro e₀ he₀
      injection he₀ with h'
      subst h'
      constructor
      · rw [hm]
      · rw [hm]
        exact mget_mset_self _ _ _ (jsKeyEq_vstr_refl _)

/-- C1 counterexample: two consecutive per-path validations of `user` whose
outcome changes (first valid, then — after the value changed — invalid).  The
claim demands that both calls request a render; in fact the first call, a
success on a never-cached path, requests none (`false`), and only the second
renders. -/
theorem claim_C1_counterexample :
    dynamicValidation
      (fun _ v => if jsTruthy (getKey v "user")
        then some (JS.vobj [("message", JS.vstr "bad")]) else none)
      "_" (some "user")
      { form := JS.vobj [("user", JS.vstr "")],
        validationObject := JS.vobj [("user", JS.vstr "")],
        errorsMap := [], invalidNames := [], renders := 0 }
      (textElement "x") =
      .ok ({ form := JS.vobj [("user", JS.vstr "")],
             validationObject := JS.vobj [("user", JS.vstr "x")],
             errorsMap := [(JS.vstr "user", JS.vstr "")],
             invalidNames := [], renders := 0 }, false) ∧
    dynamicValidation
      (fun _ v => if jsTruthy (getKey v "user")
        then some (JS.vobj [("message", JS.vstr "bad")]) else none)
      "_" (some "user")
      { form := JS.vobj [("user", JS.vstr "x")],
        validationObject := JS.vobj [("user", JS.vstr "x")],
        errorsMap := [(JS.vstr "user", JS.vstr "")],
        invalidNames := [], renders := 0 }
      (textElement "x") =
      .ok ({ form := JS.vobj [("user", JS.vstr "x")],
             validationObject :=
               JS.vobj [("user",
                 JS.vobj [("value", JS.vstr "x"), ("error", JS.vstr "bad")])],
             errorsMap := [(JS.vstr "user", JS.vstr "bad")],
             invalidNames := ["user"], renders := 1 }, true) :=
  ⟨rfl, rfl⟩

/-- C1 (amended): per-path validation follows the suppression rule exactly —
on success a render is requested iff the cache held a previous non-empty
error for the path, on failure iff the new message differs from the cached
entry (data-select controls always render) — and the cache is updated to the
new outcome.  Consequently the second of two consecutive same-outcome calls
never requests a render (data-select apart), and after an edit that changes
the outcome the second call always requests a render; the first call of such
a pair, however, renders only per the rule applied to the prior cache, so it
may stay silent (for example a success on a never-validated path). -/
theorem claim_C1 (vsa : String → JS → Option JS) (sep n : String) (st : FormState)
    (el : Element)
    (hn : n ≠ "")
    (hl : writeLands st.validationObject (jsSplit sep n) = true)
    (hcache : mget st.errorsMap (JS.vstr (toYupPath sep n)) = JS.undef ∨
      ∃ s, mget st.errorsMap (JS.vstr (toYupPath sep n)) = JS.vstr s)
    (hwfe : ∀ e, vsa (toYupPath sep n) st.form = some e →
      e ≠ JS.undef ∧ e ≠ JS.vnull ∧ ∃ m, m ≠ "" ∧ getKey e "message" = JS.vstr m) :
    ∃ st' r, dynamicValidation vsa sep (some n) st el = .ok (st', r) ∧
      st'.form = st.form ∧
      (vsa (toYupPath sep n) st.form = none →
        ((r = true ↔ el.dataSelect = true ∨
          ∃ s, s ≠ "" ∧ mget st.errorsMap (JS.vstr (toYupPath sep n)) = JS.vstr s) ∧
         mget st'.errorsMap (JS.vstr (toYupPath sep n)) = JS.vstr "")) ∧
      (∀ e m, vsa (toYupPath sep n) st.form = some e →
        getKey e "message" = JS.vstr m →
        ((r = true ↔ el.dataSelect = true ∨
          mget st.errorsMap (JS.vstr (toYupPath sep n)) ≠ JS.vstr m) ∧
         mget st'.errorsMap (JS.vstr (toYupPath sep n)) = JS.vstr m)) ∧
      (el.dataSelect = false →
        ∀ st'' r', dynamicValidation vsa sep (some n) st' el = .ok (st'', r') →
          r' = false) ∧
      (el.dataSelect = false →
        ∀ (f' : JS) (st'' : FormState) (r' : Bool),
          (vsa (toYupPath sep n) st.form = none → vsa (toYupPath sep n) f' ≠ none) →
          (∀ e m e' m', vsa (toYupPath sep n) st.form = some e →
            getKey e "message" = JS.vstr m →
            vsa (toYupPath sep n) f' = some e' → getKey e' "message" = JS.vstr m' →
            m' ≠ m) →
          (∀ e', vsa (toYupPath sep n) f' = some e' →
            e' ≠ JS.undef ∧ e' ≠ JS.vnull ∧
              ∃ m', m' ≠ "" ∧ getKey e' "message" = JS.vstr m') →
          dynamicValidation vsa sep (some n) { st' with form := f' } el = .ok (st'', r') →
          r' = true) := by
  obtain ⟨st', r, heq, hform, hwl, hsucc, hfail⟩ :=
    dynamicValidation_char vsa sep n st el hn hl hwfe
  refine ⟨st', r, heq, hform, ?_, ?_, ?_, ?_⟩
  · intro hs
    obtain ⟨hr, hcpost⟩ := hsucc hs
    refine ⟨?_, hcpost⟩
    rw [hr, Bool.or_eq_true]
    exact or_congr Iff.rfl (cache_nonempty_iff hcache)
  · intro e m he hm
    obtain ⟨hr, hcpost⟩ := hfail e he
    rw [hm] at hr hcpost
    refine ⟨?_, hcpost⟩
    rw [hr, Bool.or_eq_true]
    exact or_congr Iff.rfl (cache_ne_iff _ m)
  · intro hsel st'' r' hdv
    have hwfe' : ∀ e, vsa (toYupPath sep n) st'.form = some e →
        e ≠ JS.undef ∧ e ≠ JS.vnull ∧ ∃ m, m ≠ "" ∧ getKey e "message" = JS.vstr m := by
      rw [hform]; exact hwfe
    obtain ⟨st₂, r₂, heq₂, _, _, hsucc₂, hfail₂⟩ :=
      dynamicValidation_char vsa sep n st' el hn hwl hwfe'
    rw [heq₂] at hdv
    have hrr : r' = r₂ := by
      have h0 := hdv
      simp only [Except.ok.injEq, Prod.mk.injEq] at h0
      exact h0.2.symm
    cases ho : vsa (toYupPath sep n) st.form with
    | none =>
      obtain ⟨_, hcpost⟩ := hsucc ho
      have ho' : vsa (toYupPath sep n) st'.form = none := by rw [hform]; exact ho
      obtain ⟨hr₂, _⟩ := hsucc₂ ho'
      rw [hcpost] at hr₂
      simp only [jsStrictEq] at hr₂
      rw [hrr, hr₂, hsel]
      simp
    | some e =>
      obtain ⟨_, _, m, hmne, hm⟩ := hwfe e ho
      obtain ⟨_, hcpost⟩ := hfail e ho
      rw [hm] at hcpost
      have ho' : vsa (toYupPath sep n) st'.form = some e := by rw [hform]; exact ho
      obtain ⟨hr₂, _⟩ := hfail₂ e ho'
      rw [hm, hcpost] at hr₂
      simp only [jsStrictEq] at hr₂
      rw [hrr, hr₂, hsel]
      simp
  · intro hsel f' st'' r' hchg1 hchg2 hwf' hdv
    have hwf'' : ∀ e', vsa (toYupPath sep n) ({ st' with form := f' } : FormState).form =
        some e' → e' ≠ JS.undef ∧ e' ≠ JS.vnull ∧
          ∃ m', m' ≠ "" ∧ getKey e' "message" = JS.vstr m' := hwf'
    obtain ⟨st₂, r₂, heq₂, _, _, hsucc₂, hfail₂⟩ :=
      dynamicValidation_char vsa sep n { st' with form := f' } el hn hwl hwf''
    dsimp only at hsucc₂ hfail₂
    rw [heq₂] at hdv
    have hrr : r' = r₂ := by
      have h0 := hdv
      simp only [Except.ok.injEq, Prod.mk.injEq] at h0
      exact h0.2.symm
    cases hout2 : vsa (toYupPath sep n) f' with
    | none =>
      cases ho : vsa (toYupPath sep n) st.form with
      | none => exact absurd hout2 (hchg1 ho)
      | some e =>
        obtain ⟨_, _, m, hmne, hm⟩ := hwfe e ho
        obtain ⟨_, hcpost⟩ := hfail e ho
        rw [hm] at hcpost
        obtain ⟨hr₂, _⟩ := hsucc₂ hout2
        rw [hcpost] at hr₂
        simp only [jsStrictEq] at hr₂
        rw [hrr, hr₂]
        simp [hmne]
    | some e' =>
      obtain ⟨_, _, m', hmne', hm'⟩ := hwf' e' hout2
      obtain ⟨hr₂, _⟩ := hfail₂ e' hout2
      rw [hm'] at hr₂
      cases ho : vsa (toYupPath sep n) st.form with
      | none =>
        obtain ⟨_, hcpost⟩ := hsucc ho
        rw [hcpost] at hr₂
        simp only [jsStrictEq] at hr₂
        rw [hrr, hr₂]
        simp [Ne.symm hmne']
      | some e =>
        obtain ⟨_, _, m, hmne, hm⟩ := hwfe e ho
        have hne : m' ≠ m := hchg2 e m e' m' ho hm hout2 hm'
        obtain ⟨_, hcpost⟩ := hfail e ho
        rw [hm] at hcpost
        rw [hcpost] at hr₂
        simp only [jsStrictEq] at hr₂
        rw [hrr, hr₂]
        simp [Ne.symm hne]

/-- C1 witness: the characterization applied to a concrete success call on a
never-validated path — `dynamicValidation` returns without render. -/
theorem claim_C1_witness :
    ∃ st' r, dynamicValidation (fun _ _ => none) "_" (some "user")
        { form := JS.vobj [("user", JS.vstr "")],
          validationObject := JS.vobj [("user", JS.vstr "")],
          errorsMap := [], invalidNames := [], renders := 0 }
        (textElement "x") = .ok (st', r) ∧
      st'.form = JS.vobj [("user", JS.vstr "")] ∧ r = false := by
  obtain ⟨st', r, heq, hform, hsucc, _, _, _⟩ :=
    claim_C1 (fun _ _ => none) "_" "user"
      { form := JS.vobj [("user", JS.vstr "")],
        validationObject := JS.vobj [("user", JS.vstr "")],
        errorsMap := [], invalidNames := [], renders := 0 }
      (textElement "x") (by decide) (by decide) (Or.inl rfl)
      (fun e he => by cases he)

  refine ⟨st', r, heq, hform, ?_⟩
  obtain ⟨hiff, _⟩ := hsucc rfl
  cases hrv : r with
  | false => rfl
  | true =>
    have := hiff.mp hrv
    rcases this with h | ⟨s, hs, hc⟩
    · cases h
    · cases hc

/-- C7 counterexample: after `clear()` the annotated tree is not reset to the
initial tree — the previously attached error annotation survives the
structure-preserving copy — and the next per-path validation producing the
same outcome as one cached before the clear (the failure message `"req"`)
requests no render, because the error cache is untouched by `clear()`. -/
theorem claim_C7_counterexample :
    (clear (JS.vobj [("user", JS.vstr "")])
      { form := JS.vobj [("user", JS.vstr "")],
        validationObject :=
          JS.vobj [("user", JS.vobj [("value", JS.vstr ""), ("error", JS.vstr "req")])],
        errorsMap := [(JS.vstr "user", JS.vstr "req")],
        invalidNames := ["user"], renders := 5 }).validationObject =
      JS.vobj [("user", JS.vobj [("value", JS.vstr ""), ("error", JS.vstr "req")])] ∧
    JS.vobj [("user", JS.vobj [("value", JS.vstr ""), ("error", JS.vstr "req")])] ≠
      JS.vobj [("user", JS.vstr "")] ∧
    dynamicValidation (fun _ _ => some (JS.vobj [("message", JS.vstr "req")]))
      "_" (some "user")
      (clear (JS.vobj [("user", JS.vstr "")])
        { form := JS.vobj [("user", JS.vstr "")],
          validationObject :=
            JS.vobj [("user", JS.vobj [("value", JS.vstr ""), ("error", JS.vstr "req")])],
          errorsMap := [(JS.vstr "user", JS.vstr "req")],
          invalidNames := ["user"], renders := 5 })
      (textElement "x") =
      .ok ({ form := JS.vobj [("user", JS.vstr "")],
             validationObject :=
               JS.vobj [("user", JS.vobj
                 [("value", JS.vobj [("value", JS.vstr ""), ("error", JS.vstr "req")]),
                  ("error", JS.vstr "req")])],
             errorsMap := [(JS.vstr "user", JS.vstr "req")],
             invalidNames := ["user"], renders := 6 }, false) := by
  refine ⟨rfl, ?_, rfl⟩
  simp

/-- C7 (amended): `clear()` is exactly `commit` (that is, `update`) of the
original initial tree: the value tree is reset to the initial tree, but the
annotated tree is the structure-preserving copy of the initial tree that
keeps existing annotations, and the Change-Suppression Cache is untouched —
so a next per-path validation whose outcome matches the entry cached before
the clear requests no render (data-select controls apart), exactly as if no
clear had happened. -/
theorem claim_C7 (initialFields : JS) (st : FormState) :
    clear initialFields st = update initialFields st ∧
    (clear initialFields st).form = initialFields ∧
    (clear initialFields st).errorsMap = st.errorsMap ∧
    (clear initialFields st).validationObject = deepCopy initialFields st.validationObject ∧
    (clear initialFields st).renders = st.renders + 1 ∧
    (∀ (vsa : String → JS → Option JS) (sep n : String) (el : Element),
      el.dataSelect = false → n ≠ "" →
      writeLands (deepCopy initialFields st.validationObject) (jsSplit sep n) = true →
      (∀ e, vsa (toYupPath sep n) initialFields = some e →
        e ≠ JS.undef ∧ e ≠ JS.vnull ∧ ∃ m, m ≠ "" ∧ getKey e "message" = JS.vstr m) →
      ((vsa (toYupPath sep n) initialFields = none ∧
        mget st.errorsMap (JS.vstr (toYupPath sep n)) = JS.vstr "") ∨
       (∃ e m, vsa (toYupPath sep n) initialFields = some e ∧
         getKey e "message" = JS.vstr m ∧
         mget st.errorsMap (JS.vstr (toYupPath sep n)) = JS.vstr m)) →
      ∀ st'' r',
        dynamicValidation vsa sep (some n) (clear initialFields st) el = .ok (st'', r') →
        r' = false) := by
  refine ⟨rfl, rfl, rfl, rfl, rfl, ?_⟩
  intro vsa sep n el hsel hn hl hwfe hmatch st'' r' hdv
  obtain ⟨st₂, r₂, heq₂, _, _, hsucc₂, hfail₂⟩ :=
    dynamicValidation_char vsa sep n (clear initialFields st) el hn hl hwfe
  dsimp only [clear, update] at hsucc₂ hfail₂
  rw [heq₂] at hdv
  have hrr : r' = r₂ := by
    have h0 := hdv
    simp only [Except.ok.injEq, Prod.mk.injEq] at h0
    exact h0.2.symm
  rcases hmatch with ⟨ho, hc⟩ | ⟨e, m, ho, hm, hc⟩
  · obtain ⟨hr₂, _⟩ := hsucc₂ ho
    rw [hc] at hr₂
    simp only [jsStrictEq] at hr₂
    rw [hrr, hr₂, hsel]
    simp
  · obtain ⟨hr₂, _⟩ := hfail₂ e ho
    rw [hm, hc] at hr₂
    simp only [jsStrictEq] at hr₂
    rw [hrr, hr₂, hsel]
    simp

/-- C7 witness: the clear-then-revalidate facts at a concrete state carrying a
cached failure for `user`. -/
theorem claim_C7_witness :
    (clear (JS.vobj [("user", JS.vstr "")])
      { form := JS.vobj [("user", JS.vstr "x")],
        validationObject := JS.vobj [("user", JS.vstr "x")],
        errorsMap := [(JS.vstr "user", JS.vstr "req")],
        invalidNames := [], renders := 0 }).errorsMap =
      [(JS.vstr "user", JS.vstr "req")] ∧
    ∀ st'' r',
      dynamicValidation (fun _ _ => some (JS.vobj [("message", JS.vstr "req")]))
        "_" (some "user")
        (clear (JS.vobj [("user", JS.vstr "")])
          { form := JS.vobj [("user", JS.vstr "x")],
            validationObject := JS.vobj [("user", JS.vstr "x")],
            errorsMap := [(JS.vstr "user", JS.vstr "req")],
            invalidNames := [], renders := 0 })
        (textElement "y") = .ok (st'', r') →
      r' = false := by
  have h := claim_C7 (JS.vobj [("user", JS.vstr "")])
    { form := JS.vobj [("user", JS.vstr "x")],
      validationObject := JS.vobj [("user", JS.vstr "x")],
      errorsMap := [(JS.vstr "user", JS.vstr "req")],
      invalidNames := [], renders := 0 }
  refine ⟨h.2.2.1, ?_⟩
  intro st'' r' hdv
  exact h.2.2.2.2.2 (fun _ _ => some (JS.vobj [("message", JS.vstr "req")]))
    "_" "user" (textElement "y") rfl (by decide) (by decide)
    (fun e he => by
      injection he with h'
      subst h'
      exact ⟨by simp, by simp, "req", by simp, rfl⟩)
    (Or.inr ⟨JS.vobj [("message", JS.vstr "req")], "req", rfl, rfl, rfl⟩)
    st'' r' hdv

/-! ### Frame properties of the tree mutator -/

theorem getKey_setKey_ne' {obj : JS} {k k' : String} {v : JS}
    (hne : k ≠ k') (h : writeLands obj [k'] = true) :
    getKey (setKey obj k v) k' = getKey obj k' := by
  cases obj with
  | vobj fs => simp [setKey, getKey, setField_find?_ne _ _ _ _ (Ne.symm hne)]
  | varr xs =>
    simp only [writeLands, Option.isSome_iff_exists] at h
    obtain ⟨j, hc'⟩ := h
    have hlen' : k' ≠ "length" := ne_length_of_canonIndex? hc'
    simp only [setKey]
    cases hc : canonIndex? k with
    | none => rfl
    | some i =>
      have hij : i ≠ j := fun he => hne (canonIndex?_inj hc (he ▸ hc'))
      by_cases hi : i < xs.length
      · simp only [if_pos hi, getKey, if_neg hlen', hc',
          List.getD_eq_getElem?_getD]
        rw [List.getElem?_set_ne hij]
      · have hle : xs.length ≤ i := Nat.le_of_not_lt hi
        simp only [if_neg hi, getKey, if_neg hlen', hc',
          List.getD_eq_getElem?_getD, List.append_assoc]
        by_cases hj : j < xs.length
        · rw [List.getElem?_append_left hj]
        · have hjle : xs.length ≤ j := Nat.le_of_not_lt hj
          rw [List.getElem?_append_right hjle]
          rw [List.getElem?_eq_none (l := xs) hjle]
          have hlenrep :
              (List.replicate (i - xs.length) JS.undef ++ [v]).length = i - xs.length + 1 := by
            simp
          by_cases hjv : j - xs.length < i - xs.length
          · rw [List.getElem?_append_left (by simpa using hjv)]
            rw [List.getElem?_replicate]
            simp [hjv]
          · have hjgt : i - xs.length < j - xs.length := by omega
            rw [List.getElem?_eq_none (by simp; omega)]
  | undef => simp [writeLands] at h
  | vnull => simp [writeLands] at h
  | vbool b => simp [writeLands] at h
  | vnum n => simp [writeLands] at h
  | vnan => simp [writeLands] at h
  | vstr s => simp [writeLands] at h
  | vdate t => simp [writeLands] at h

theorem findKeyAndUpdateValue_step (k : String) (obj : JS) (el : Option Element)
    (err : JS) :
    (findKeyAndUpdateValue [k] obj el err).1 = obj ∨
    ∃ x, (findKeyAndUpdateValue [k] obj el err).1 = setKey obj k x := by
  by_cases herr : jsTruthy err = true
  · right
    refine ⟨JS.vobj [("value", getKey obj k), ("error", err)], ?_⟩
    simp [findKeyAndUpdateValue, herr]
  · cases el with
    | some e =>
      right
      refine ⟨extractValue (getKey obj k) e, ?_⟩
      simp [findKeyAndUpdateValue, herr]
    | none =>
      left
      simp [findKeyAndUpdateValue, herr]

theorem findKeyAndUpdateValue_frame {el : Option Element} {err : JS} :
    ∀ (keys₁ keys₂ : List String) (obj : JS),
      ¬ (keys₁ <+: keys₂) → ¬ (keys₂ <+: keys₁) →
      writeLands obj keys₂ = true →
      getPath (findKeyAndUpdateValue keys₁ obj el err).1 keys₂ = getPath obj keys₂ ∧
      writeLands (findKeyAndUpdateValue keys₁ obj el err).1 keys₂ = true := by
  intro keys₁
  induction keys₁ with
  | nil =>
    intro keys₂ obj h1 _ _
    exact absurd (List.nil_prefix) h1
  | cons k ks ih =>
    intro keys₂ obj h1 h2 hw
    cases keys₂ with
    | nil => exact absurd (List.nil_prefix) h2
    | cons k₂ ks₂ =>
      by_cases hkk : k = k₂
      · subst hkk
        cases ks with
        | nil => exact absurd (List.cons_prefix_cons.mpr ⟨rfl, List.nil_prefix⟩) h1
        | cons k' ks' =>
          cases ks₂ with
          | nil => exact absurd (List.cons_prefix_cons.mpr ⟨rfl, List.nil_prefix⟩) h2
          | cons k₂' ks₂' =>
            have h1' : ¬ ((k' :: ks') <+: (k₂' :: ks₂')) := fun hp =>
              h1 (List.cons_prefix_cons.mpr ⟨rfl, hp⟩)
            have h2' : ¬ ((k₂' :: ks₂') <+: (k' :: ks')) := fun hp =>
              h2 (List.cons_prefix_cons.mpr ⟨rfl, hp⟩)
            simp only [writeLands, Bool.and_eq_true] at hw
            by_cases hkl : hasKeyLoop obj k = true
            · simp only [findKeyAndUpdateValue, hkl, if_true]
              have hget := getKey_setKey_self
                (v := (findKeyAndUpdateValue (k' :: ks') (getKey obj k) el err).1)
                (writeLands_single_of_hasKeyLoop hw.1)
              obtain ⟨ihg, ihw⟩ := ih (k₂' :: ks₂') (getKey obj k) h1' h2' hw.2
              constructor
              · simp only [getPath]
                rw [hget]
                exact ihg
              · simp only [writeLands, Bool.and_eq_true]
                exact ⟨hasKeyLoop_setKey hw.1, by rw [hget]; exact ihw⟩
            · exact absurd hw.1 hkl
      · -- distinct head keys: the write touches a disjoint subtree
        have hone : ∀ x, getPath (setKey obj k x) (k₂ :: ks₂) = getPath obj (k₂ :: ks₂) ∧
            writeLands (setKey obj k x) (k₂ :: ks₂) = true := by
          intro x
          cases ks₂ with
          | nil =>
            constructor
            · simp only [getPath]
              rw [getKey_setKey_ne' hkk hw]
            · exact writeLands_single_setKey hw
          | cons k₂' ks₂' =>
            simp only [writeLands, Bool.and_eq_true] at hw
            have hgne := getKey_setKey_ne (v := x) hkk hw.1
            constructor
            · simp only [getPath]
              rw [hgne]
            · simp only [writeLands, Bool.and_eq_true]
              refine ⟨hasKeyLoop_setKey hw.1, ?_⟩
              rw [hgne]
              exact hw.2
        cases ks with
        | nil =>
          rcases findKeyAndUpdateValue_step k obj el err with hid | ⟨x, hx⟩
          · rw [hid]
            exact ⟨rfl, hw⟩
          · rw [hx]
            exact hone x
        | cons k' ks' =>
          by_cases hkl : hasKeyLoop obj k = true
          · simp only [findKeyAndUpdateValue, hkl, if_true]
            exact hone _
          · have hreq : findKeyAndUpdateValue (k :: k' :: ks') obj el err =
                (obj, JS.undef) := by
              simp [findKeyAndUpdateValue, hkl]
            rw [hreq]
            exact ⟨rfl, hw⟩

/-- The failure loop of `validate`, tracked at one reported path `p`: after
the loop, the annotated tree's slot at `p` carries the error message written
there (provided every failure reported at `p` carries message `m` and every
other reported path is incomparable with `p`). -/
theorem applyFailures_slot (separator : String) (e : JS) (p m : String) (hm : m ≠ "") :
    ∀ (items : List JS) (em : List (JS × JS)) (vo : JS) (inv : List String),
      (∀ item ∈ items, item ≠ JS.undef ∧ item ≠ JS.vnull ∧
        ∃ s, getKey item "path" = JS.vstr s) →
      (∀ item ∈ items, ∀ s, getKey item "path" = JS.vstr s →
        (s = p → getKey item "message" = JS.vstr m) ∧
        (s ≠ p → ¬ (splitYupPath s <+: splitYupPath p) ∧
          ¬ (splitYupPath p <+: splitYupPath s))) →
      writeLands vo (splitYupPath p) = true →
      ∀ em' vo' inv',
        applyFailures separator e items em vo inv = .ok (em', vo', inv') →
        writeLands vo' (splitYupPath p) = true ∧
        ((∃ item ∈ items, getKey item "path" = JS.vstr p) →
          ∃ v, getPath vo' (splitYupPath p) =
            JS.vobj [("value", v), ("error", JS.vstr m)]) ∧
        ((∀ item ∈ items, getKey item "path" ≠ JS.vstr p) →
          getPath vo' (splitYupPath p) = getPath vo (splitYupPath p)) := by
  intro items
  induction items with
  | nil =>
    intro em vo inv _ _ hl em' vo' inv' happ
    simp only [applyFailures, Except.ok.injEq, Prod.mk.injEq] at happ
    obtain ⟨_, hvo, _⟩ := happ
    subst hvo
    refine ⟨hl, ?_, fun _ => rfl⟩
    rintro ⟨item, hmem, _⟩
    exact absurd hmem (List.not_mem_nil item)
  | cons item rest ih =>
    intro em vo inv hwf hpair hl em' vo' inv' happ
    obtain ⟨h1, h2, s, hs⟩ := hwf item (by simp)
    simp only [applyFailures, jsGet_ok h1 h2, exceptOkBind, hs] at happ
    by_cases hsp : s = p
    · subst hsp
      have hmsg : getKey item "message" = JS.vstr m := (hpair item (by simp) s hs).1 rfl
      rw [hmsg] at happ
      have herr := @findKeyAndUpdateValue_error_slot (JS.vstr m)
        (by simp [jsTruthy, hm]) (splitYupPath s) vo none hl
      obtain ⟨ih1, ih2, ih3⟩ := ih _ _ _
        (fun it hit => hwf it (List.mem_cons_of_mem _ hit))
        (fun it hit => hpair it (List.mem_cons_of_mem _ hit))
        herr.2.2 em' vo' inv' happ
      refine ⟨ih1, ?_, ?_⟩
      · intro _
        by_cases hrest : ∃ it ∈ rest, getKey it "path" = JS.vstr s
        · exact ih2 hrest
        · have hall : ∀ it ∈ rest, getKey it "path" ≠ JS.vstr s := by
            intro it hit hne
            exact hrest ⟨it, hit, hne⟩
          rw [ih3 hall, herr.2.1]
          exact ⟨_, rfl⟩
      · intro hall
        exact absurd hs (hall item (by simp))
    · have hinc := (hpair item (by simp) s hs).2 hsp
      have hframe := @findKeyAndUpdateValue_frame none (getKey item "message")
        (splitYupPath s) (splitYupPath p) vo
        hinc.1 hinc.2 hl
      obtain ⟨ih1, ih2, ih3⟩ := ih _ _ _
        (fun it hit => hwf it (List.mem_cons_of_mem _ hit))
        (fun it hit => hpair it (List.mem_cons_of_mem _ hit))
        hframe.2 em' vo' inv' happ
      refine ⟨ih1, ?_, ?_⟩
      · rintro ⟨it, hit, hppath⟩
        rcases List.mem_cons.mp hit with rfl | htl
        · rw [hs] at hppath
          injection hppath with h'
          exact absurd h' hsp
        · exact ih2 ⟨it, htl, hppath⟩
      · intro hall
        rw [ih3 (fun it hit => hall it (List.mem_cons_of_mem _ hit)), hframe.1]

/-- C6 counterexample: two failures reported for the same path `user` with
messages `m1` then `m2` — the slot ends up carrying `m2`, not the message
`m1` of the first reported failure, refuting `error = the reported message`
for every reported failure. -/
theorem claim_C6_counterexample :
    validate
      (some (fun _ => some (JS.vobj [("message", JS.vstr "agg"),
        ("inner", JS.varr
          [JS.vobj [("path", JS.vstr "user"), ("message", JS.vstr "m1")],
           JS.vobj [("path", JS.vstr "user"), ("message", JS.vstr "m2")]])])))
      "_"
      { form := JS.vobj [("user", JS.vstr "")],
        validationObject := JS.vobj [("user", JS.vstr "")],
        errorsMap := [], invalidNames := [], renders := 0 } =
      .ok (false,
        { form := JS.vobj [("user", JS.vstr "")],
          validationObject := JS.vobj [("user",
            JS.vobj [("value", JS.vobj [("value", JS.vstr ""), ("error", JS.vstr "m1")]),
                     ("error", JS.vstr "m2")])],
          errorsMap := [(JS.vstr "user", JS.vstr "agg")],
          invalidNames := ["user"], renders := 1 }) ∧
    getKey
      (getPath (JS.vobj [("user",
        JS.vobj [("value", JS.vobj [("value", JS.vstr ""), ("error", JS.vstr "m1")]),
                 ("error", JS.vstr "m2")])]) ["user"])
      "error" = JS.vstr "m2" ∧
    JS.vstr "m2" ≠ JS.vstr "m1" := by
  refine ⟨rfl, rfl, ?_⟩
  simp

/-- C6 (amended): when `validate` returns `false`, every reported failure
path that lands in the tree shape carries a `{ value, error }` pair whose
error is the message of the last failure reported for that path — provided
every failure reported at that path carries the same message and no other
reported path is a prefix or an extension of it (interfering writes at
nested or duplicate paths overwrite or re-nest earlier annotations). -/
theorem claim_C6 (vs : JS → Option JS) (separator : String) (st : FormState)
    (e : JS) (items : List JS) (p m : String)
    (hf : vs st.form = some e) (he1 : e ≠ JS.undef) (he2 : e ≠ JS.vnull)
    (hinner : getKey e "inner" = JS.varr items)
    (hitems : ∀ item ∈ items, item ≠ JS.undef ∧ item ≠ JS.vnull ∧
      ∃ s, getKey item "path" = JS.vstr s)
    (hpair : ∀ item ∈ items, ∀ s, getKey item "path" = JS.vstr s →
      (s = p → getKey item "message" = JS.vstr m) ∧
      (s ≠ p → ¬ (splitYupPath s <+: splitYupPath p) ∧
        ¬ (splitYupPath p <+: splitYupPath s)))
    (hmem : ∃ item ∈ items, getKey item "path" = JS.vstr p)
    (hm : m ≠ "")
    (hex : writeLands (deepCopy st.form JS.undef) (splitYupPath p) = true) :
    ∃ st' v, validate (some vs) separator st = .ok (false, st') ∧
      getPath st'.validationObject (splitYupPath p) =
        JS.vobj [("value", v), ("error", JS.vstr m)] := by
  obtain ⟨em', vo', inv', hrun⟩ :=
    applyFailures_ok separator e items st.errorsMap (deepCopy st.form JS.undef) [] hitems
  obtain ⟨_, hslot, _⟩ :=
    applyFailures_slot separator e p m hm items st.errorsMap
      (deepCopy st.form JS.undef) [] hitems hpair hex em' vo' inv' hrun
  obtain ⟨v, hv⟩ := hslot hmem
  refine ⟨{ form := st.form, validationObject := vo', errorsMap := em',
            invalidNames := inv', renders := st.renders + 1 }, v, ?_, hv⟩
  simp only [validate, hf, jsGet_ok he1 he2, exceptOkBind, hinner, hrun, exceptOkBind']

/-- C6 witness: a single failure `(user, "required")` on the tree
`{ user: "" }` — `validate` returns `false` and the slot carries the error. -/
theorem claim_C6_witness :
    ∃ st' v, validate
      (some (fun _ => some (JS.vobj [("message", JS.vstr "agg"),
        ("inner", JS.varr
          [JS.vobj [("path", JS.vstr "user"), ("message", JS.vstr "required")]])])))
      "_"
      { form := JS.vobj [("user", JS.vstr "")],
        validationObject := JS.vobj [("user", JS.vstr "")],
        errorsMap := [], invalidNames := [], renders := 0 } = .ok (false, st') ∧
      getPath st'.validationObject (splitYupPath "user") =
        JS.vobj [("value", v), ("error", JS.vstr "required")] := by
  apply claim_C6
  · rfl
  · simp
  · simp
  · rfl
  · intro item hitem
    simp only [List.mem_singleton] at hitem
    subst hitem
    exact ⟨by simp, by simp, "user", rfl⟩
  · intro item hitem s hsit
    simp only [List.mem_singleton] at hitem
    subst hitem
    have hsu : s = "user" := by
      have : JS.vstr "user" = JS.vstr s := by rw [← hsit]; rfl
      injection this with h'
      exact h'.symm
    subst hsu
    exact ⟨fun _ => rfl, fun hne => absurd rfl hne⟩
  · exact ⟨JS.vobj [("path", JS.vstr "user"), ("message", JS.vstr "required")], by simp, rfl⟩
  · decide
  · decide

end ReactiveForm
